import Mathlib

/-!
# Reed-Solomon library: modulo helpers and the systematic encoder

A shallow embedding of `include/linux/rslib.h` (the helpers `rs_modnn`,
`rs_modnn_mul`, `rs_modnn_fast`) and of `lib/reed_solomon/encode_rs.c`
(the encoder body shared by `encode_rs8` and `encode_rs16`).

Conventions of the embedding:
* C `int` values are mathematical integers (`Int`).  The one `int` expression
  that can leave the 32-bit range, `pad = nn - nroots - len` for a very negative
  `len`, is only tested against `0` and `nn`, and `pad_test_wrap` shows that the
  wrapped value passes or fails that test exactly as the exact value does.
* `uint16_t` and `uint8_t` cells are natural numbers; the explicit casts of the
  source (`(uint16_t) data[i]`, `(uint16_t) rs->nn`) are kept as reductions
  modulo `2^16`, and `uint32_t` arithmetic is reduced modulo `2^32`.
* Buffers are lists; every array access is checked and yields `none` when it
  falls outside the buffer, so a result `some _` certifies that the run stayed
  inside all of its buffers.
* Loops whose trip count is not fixed in advance (`rs_modnn`, `rs_modnn_mul`)
  take a bound on the number of iterations and yield `none` when it is
  exhausted.
-/

namespace RSLib

/-! ## Data model -/

/-- Codec data: the fields of `struct rs_codec` that the modelled functions read
(`mm`, `nn`, `alpha_to`, `index_of`, `genpoly`, `nroots`).  `mm` is only used as
a shift count and is therefore a natural number. -/
structure rs_codec where
  mm : Nat
  nn : Int
  alpha_to : List Nat
  index_of : List Nat
  genpoly : List Nat
  nroots : Int

/-- Modelled from the spec: the errno constant behind the "range error" of the
encoder (`-ERANGE` in `encode_rs.c`); its definition is not among the source
files.  The customary value 34 is used. -/
def ERANGE : Int := 34

/-- Conversion of an `int` to `uint16_t`. -/
def u16 (x : Int) : Nat := (x % 65536).toNat

/-- Conversion of an `int` to `uint32_t`. -/
def u32 (x : Int) : Nat := (x % 4294967296).toNat

/-- Conversion of a `uint32_t` value to `int` (two's complement). -/
def i32 (x : Nat) : Int := if x < 2147483648 then (x : Int) else (x : Int) - 4294967296

/-- Checked read `a[i]`. -/
def rd (a : List Nat) (i : Int) : Option Nat :=
  if i < 0 then none else a[i.toNat]?

/-- Checked write `a[i] = v`. -/
def wr (a : List Nat) (i : Int) (v : Nat) : Option (List Nat) :=
  if 0 ≤ i ∧ i < (a.length : Int) then some (a.set i.toNat v) else none

/-! ## Modulo helpers (`rslib.h`) -/

/-- The loop of `rs_modnn`: `while (x >= rs->nn) { x -= rs->nn;
x = (x >> rs->mm) + (x & rs->nn); } return x;`, with a bound on the number of
iterations. -/
def rs_modnn (rs : rs_codec) : Nat → Int → Option Int
  | 0, x => if x ≥ rs.nn then none else some x
  | fuel + 1, x =>
    if x ≥ rs.nn then
      rs_modnn rs fuel (((x - rs.nn) >>> rs.mm) + Int.land (x - rs.nn) rs.nn)
    else some x

/-- The body of the loop of `rs_modnn`: `x -= rs->nn;
x = (x >> rs->mm) + (x & rs->nn);`. -/
def rs_modnn_body (rs : rs_codec) (x : Int) : Int :=
  ((x - rs.nn) >>> rs.mm) + Int.land (x - rs.nn) rs.nn

/-- Exact integer value of `x - nn` in the loop of `rs_modnn_mul`. -/
def mul_sub_exact (nn x : Nat) : Int := (x : Int) - (nn : Int)

/-- Exact integer value of `(x >> rs->mm) + (x & nn)` in the loop of
`rs_modnn_mul`. -/
def mul_fold_exact (rs : rs_codec) (nn x : Nat) : Nat := (x >>> rs.mm) + (x &&& nn)

/-- The loop of `rs_modnn_mul` on `uint32_t` values: every arithmetic result is
reduced modulo `2^32`. -/
def rs_modnn_mul_loop (rs : rs_codec) (nn : Nat) : Nat → Nat → Option Nat
  | 0, x => if x ≥ nn then none else some x
  | fuel + 1, x =>
    if x ≥ nn then
      rs_modnn_mul_loop rs nn fuel
        (mul_fold_exact rs nn (u32 (mul_sub_exact nn x)) % 4294967296)
    else some x

/-- The function `rs_modnn_mul`: `uint32_t x = (uint32_t)a * (uint32_t)b;
uint32_t nn = (uint32_t)rs->nn;` followed by the folding loop and the
conversion of the result to `int`. -/
def rs_modnn_mul (rs : rs_codec) (fuel : Nat) (a b : Int) : Option Int :=
  (rs_modnn_mul_loop rs (u32 rs.nn) fuel ((u32 a * u32 b) % 4294967296)).map i32

/-- The function `rs_modnn_fast`: `return x - rs->nn < 0 ? x : x - rs->nn;`. -/
def rs_modnn_fast (rs : rs_codec) (x : Int) : Int :=
  if x - rs.nn < 0 then x else x - rs.nn

/-! ## Encoder (`encode_rs.c`) -/

/-- Index used on `index_of` at line 29:
`((((uint16_t) data[i]) ^ invmsk) & msk) ^ par[0]` with `msk = (uint16_t) rs->nn`. -/
def fb_index (rs : rs_codec) (d invmsk p0 : Nat) : Nat :=
  ((u16 (d : Int) ^^^ invmsk) &&& u16 rs.nn) ^^^ p0

/-- The table value `alpha_to[rs_modnn_fast(rs, fb + genpoly[k])]` of lines 33-38. -/
def gen_term (rs : rs_codec) (fb : Nat) (k : Int) : Option Nat := do
  let g ← rd rs.genpoly k
  rd rs.alpha_to (rs_modnn_fast rs ((fb : Int) + (g : Int)))

/-- Lines 32-35: `for (j = 1; j < nroots; j++)
par[j - 1] = par[j] ^ alpha_to[rs_modnn_fast(rs, fb + genpoly[nroots - j])];`. -/
def shift_feedback (rs : rs_codec) (fb : Nat) (par : List Nat) : Option (List Nat) :=
  (List.range' 1 (rs.nroots - 1).toNat).foldlM (fun (par : List Nat) (j : Nat) => do
    let pj ← rd par (j : Int)
    let a ← gen_term rs fb (rs.nroots - (j : Int))
    wr par ((j : Int) - 1) (pj ^^^ a)) par

/-- Lines 40-41: `for (j = 1; j < nroots; j++) par[j - 1] = par[j];`. -/
def shift_plain (rs : rs_codec) (par : List Nat) : Option (List Nat) :=
  (List.range' 1 (rs.nroots - 1).toNat).foldlM (fun (par : List Nat) (j : Nat) => do
    let pj ← rd par (j : Int)
    wr par ((j : Int) - 1) pj) par

/-- Body of the loop over the data symbols (lines 29-43) for the index `i`. -/
def encode_rs_step (rs : rs_codec) (data : List Nat) (invmsk : Nat)
    (par : List Nat) (i : Nat) : Option (List Nat) := do
  let d ← rd data (i : Int)
  let p0 ← rd par 0
  let fb ← rd rs.index_of (fb_index rs d invmsk p0 : Nat)
  if (fb : Int) ≠ rs.nn then
    let par ← shift_feedback rs fb par
    let a ← gen_term rs fb 0
    wr par (rs.nroots - 1) a
  else
    let par ← shift_plain rs par
    wr par (rs.nroots - 1) 0

/-- Lines 28-44: `for (i = 0; i < len; i++) { ... }` started on the parity
buffer `par`. -/
def encode_rs_loop (rs : rs_codec) (data : List Nat) (len : Int) (invmsk : Nat)
    (par : List Nat) : Option (List Nat) :=
  (List.range len.toNat).foldlM (encode_rs_step rs data invmsk) par

/-- What a call of the encoder leaves behind: the returned `int` and the two
caller-owned buffers. -/
structure enc_result where
  ret : Int
  data : List Nat
  par : List Nat
deriving DecidableEq

/-- The encoder body of `encode_rs.c`.  `none` stands for a run that leaves one
of its buffers. -/
def encode_rs (rs : rs_codec) (data : List Nat) (len : Int) (par : List Nat)
    (invmsk : Nat) : Option enc_result :=
  let pad := rs.nn - rs.nroots - len
  if pad < 0 ∨ pad ≥ rs.nn then
    some ⟨-ERANGE, data, par⟩
  else
    (encode_rs_loop rs data len invmsk par).map (fun p => ⟨0, data, p⟩)

/-! ## Value-level description of one encoder step -/

/-- The parity register after one shift: position `k < n` takes `par[k+1]`
(zero past the end) XOR `c (n-1-k)`. -/
def shifted (n : Nat) (c : Nat → Nat) (par : List Nat) : List Nat :=
  (List.range n).map (fun k => par.getD (k + 1) 0 ^^^ c (n - 1 - k))

/-! ## Input conditions -/

/-- The buffers as the encoder's contract describes them: `mm ≥ 1`,
`nn = 2^mm - 1`, `0 ≤ nroots ≤ nn`, tables `alpha_to` and `index_of` of `nn + 1`
symbols, `genpoly` of `nroots + 1` symbols, `data` of exactly `len` symbols, a
parity buffer of exactly `nroots` symbols, every symbol at most `nn`. -/
def bufs_ok (rs : rs_codec) (data : List Nat) (len : Int) (par : List Nat) : Prop :=
  1 ≤ rs.mm ∧ rs.nn = 2 ^ rs.mm - 1 ∧ 0 ≤ rs.nroots ∧ rs.nroots ≤ rs.nn
  ∧ (rs.alpha_to.length : Int) = rs.nn + 1 ∧ (∀ x ∈ rs.alpha_to, (x : Int) ≤ rs.nn)
  ∧ (rs.index_of.length : Int) = rs.nn + 1 ∧ (∀ x ∈ rs.index_of, (x : Int) ≤ rs.nn)
  ∧ (rs.genpoly.length : Int) = rs.nroots + 1 ∧ (∀ x ∈ rs.genpoly, (x : Int) ≤ rs.nn)
  ∧ (data.length : Int) = len
  ∧ (par.length : Int) = rs.nroots ∧ (∀ x ∈ par, (x : Int) ≤ rs.nn)

/-- The buffers a call of the encoder may rely on for its loop: `nn = 2^mm - 1`,
`nroots ≥ 1`, tables `alpha_to` and `index_of` of `nn + 1` symbols, `genpoly` of
`nroots + 1` symbols, `data` of at least `len` symbols (any buffer when
`len ≤ 0`), a parity buffer of exactly `nroots` symbols, every symbol at most
`nn`. -/
def call_ok (rs : rs_codec) (data : List Nat) (len : Int) (par : List Nat) : Prop :=
  rs.nn = 2 ^ rs.mm - 1 ∧ 1 ≤ rs.nroots
  ∧ (rs.alpha_to.length : Int) = rs.nn + 1 ∧ (∀ x ∈ rs.alpha_to, (x : Int) ≤ rs.nn)
  ∧ (rs.index_of.length : Int) = rs.nn + 1 ∧ (∀ x ∈ rs.index_of, (x : Int) ≤ rs.nn)
  ∧ (rs.genpoly.length : Int) = rs.nroots + 1 ∧ (∀ x ∈ rs.genpoly, (x : Int) ≤ rs.nn)
  ∧ len ≤ (data.length : Int)
  ∧ (par.length : Int) = rs.nroots ∧ (∀ x ∈ par, (x : Int) ≤ rs.nn)

/-- The well-formed codec of the encoder's algebraic contract, over a commutative
ring `F` whose elements the symbols `0..nn` stand for through `φ`: `mm ≥ 1`,
`nn = 2^mm - 1`, XOR of symbols is addition in `F`, `alpha` has `alpha^nn = 1`,
`alpha_to[i]` is the symbol of `alpha^i` and `index_of[alpha_to[i]] = i` for
`i < nn`, `index_of[0] = nn`, and `genpoly[k] < nn` for `k < nroots`.  A field
`GF(2^mm)` with a primitive element `alpha` is the intended instance. -/
def codec_wf {F : Type} [CommRing F] (φ : Nat → F) (α : F) (rs : rs_codec) : Prop :=
  1 ≤ rs.mm ∧ rs.nn = 2 ^ rs.mm - 1
  ∧ (∀ a b : Nat, (a : Int) ≤ rs.nn → (b : Int) ≤ rs.nn → φ (a ^^^ b) = φ a + φ b)
  ∧ α ^ rs.nn.toNat = 1
  ∧ (∀ i : Nat, (i : Int) < rs.nn →
      ∃ s, rs.alpha_to[i]? = some s ∧ (s : Int) ≤ rs.nn ∧ φ s = α ^ i
        ∧ rs.index_of[s]? = some i)
  ∧ rs.index_of[0]? = some rs.nn.toNat
  ∧ (∀ k : Nat, (k : Int) < rs.nroots → ∃ g, rs.genpoly[k]? = some g ∧ (g : Int) < rs.nn)

/-! ## Concrete codecs -/

/-- The codec over GF(8) built from the field polynomial `x^3 + x + 1`, with two
roots `alpha^1`, `alpha^2`: generator `x^2 + alpha^4 x + alpha^3`. -/
def gf8_codec : rs_codec :=
  ⟨3, 7, [1, 2, 4, 3, 6, 7, 5, 0], [7, 0, 1, 3, 2, 6, 4, 5], [3, 4, 0], 2⟩

/-- The GF(8) tables with a generator of degree zero: `nroots = 0`, generator `1`. -/
def gf8_noroots : rs_codec :=
  ⟨3, 7, [1, 2, 4, 3, 6, 7, 5, 0], [7, 0, 1, 3, 2, 6, 4, 5], [0], 0⟩

/-- The codec over GF(4) built from the field polynomial `x^2 + x + 1`, with two
roots `alpha^1`, `alpha^2`: generator `x^2 + x + 1`, all coefficients `alpha^0`. -/
def gf4_codec : rs_codec :=
  ⟨2, 3, [1, 2, 3, 0], [3, 0, 1, 2], [0, 0, 0], 2⟩

/-! ## Facts about the folding step -/

theorem fold_mod (m n : Nat) :
    (n / 2 ^ m + n % 2 ^ m) % (2 ^ m - 1) = n % (2 ^ m - 1) := by
  obtain ⟨K, hK⟩ : ∃ K, 2 ^ m = K + 1 := ⟨2 ^ m - 1, by have := @Nat.one_le_two_pow m; omega⟩
  rw [hK, Nat.add_sub_cancel]
  conv_rhs => rw [← Nat.div_add_mod n (K + 1)]
  have : (K + 1) * (n / (K + 1)) + n % (K + 1)
      = (n / (K + 1) + n % (K + 1)) + K * (n / (K + 1)) := by ring
  rw [this, Nat.add_mul_mod_self_left]

theorem fold_le (m n : Nat) : n / 2 ^ m + n % 2 ^ m ≤ n := by
  have h1 : 1 ≤ 2 ^ m := Nat.one_le_two_pow
  have := Nat.div_add_mod n (2 ^ m)
  have : n / 2 ^ m ≤ 2 ^ m * (n / 2 ^ m) := Nat.le_mul_of_pos_left _ h1
  omega

theorem nn_cast (rs : rs_codec) (hnn : rs.nn = 2 ^ rs.mm - 1) :
    rs.nn = ((2 ^ rs.mm - 1 : Nat) : Int) := by
  have := @Nat.one_le_two_pow rs.mm
  rw [hnn]; push_cast [this]; rfl

theorem two_le_pow (m : Nat) (hm : 1 ≤ m) : 2 ≤ 2 ^ m := by
  calc 2 = 2 ^ 1 := rfl
    _ ≤ 2 ^ m := Nat.pow_le_pow_right (by decide) hm

/-- One loop iteration of `rs_modnn` on a value `n ≥ 2^m - 1`, in natural numbers. -/
theorem modnn_body_nat (m n : Nat) (h : 2 ^ m - 1 ≤ n) :
    (((n : Int) - ((2 ^ m - 1 : Nat) : Int)) >>> m)
      + Int.land ((n : Int) - ((2 ^ m - 1 : Nat) : Int)) ((2 ^ m - 1 : Nat) : Int)
    = (((n - (2 ^ m - 1)) / 2 ^ m + (n - (2 ^ m - 1)) % 2 ^ m : Nat) : Int) := by
  have e : (n : Int) - ((2 ^ m - 1 : Nat) : Int) = ((n - (2 ^ m - 1) : Nat) : Int) := by
    omega
  rw [e]
  show (((n - (2 ^ m - 1)) >>> m : Nat) : Int)
      + (((n - (2 ^ m - 1)) &&& (2 ^ m - 1) : Nat) : Int) = _
  rw [Nat.shiftRight_eq_div_pow, Nat.and_pow_two_sub_one_eq_mod]
  push_cast
  rfl

theorem rs_modnn_nat (rs : rs_codec) (hmm : 1 ≤ rs.mm) (hnn : rs.nn = 2 ^ rs.mm - 1) :
    ∀ (fuel n : Nat), n ≤ fuel → rs_modnn rs fuel (n : Int) = some ((n : Int) % rs.nn) := by
  have hN := nn_cast rs hnn
  have h2 := two_le_pow rs.mm hmm
  intro fuel
  induction fuel with
  | zero =>
    intro n hn
    have : n = 0 := by omega
    subst this
    simp only [rs_modnn, hN]
    rw [if_neg (by omega)]
    simp
  | succ f ih =>
    intro n hn
    by_cases hlt : n < 2 ^ rs.mm - 1
    · simp only [rs_modnn, hN]
      rw [if_neg (by omega)]
      congr 1
      rw [Int.emod_eq_of_lt (by positivity) (by exact_mod_cast hlt)]
    · simp only [rs_modnn]
      rw [if_pos (by rw [hN]; omega)]
      rw [hN, modnn_body_nat rs.mm n (by omega), ← hN,
        ih _ (by have := fold_le rs.mm (n - (2 ^ rs.mm - 1)); omega)]
      congr 1
      rw [hN]
      norm_cast
      rw [fold_mod]
      conv_rhs => rw [← Nat.sub_add_cancel (Nat.le_of_not_lt hlt)]
      rw [Nat.add_mod_right]

theorem rs_modnn_fast_mod (rs : rs_codec) (x : Int) (hx0 : 0 ≤ x)
    (hx : x < 2 * rs.nn) : rs_modnn_fast rs x = x % rs.nn := by
  unfold rs_modnn_fast
  split_ifs with h
  · rw [Int.emod_eq_of_lt hx0 (by omega)]
  · have : x = (x - rs.nn) + rs.nn := by ring
    conv_rhs => rw [this, Int.add_emod_self]
    rw [Int.emod_eq_of_lt (by omega) (by omega)]

theorem u32_of_nat (n : Nat) (h : n < 4294967296) : u32 (n : Int) = n := by
  unfold u32
  rw [Int.emod_eq_of_lt (by positivity) (by exact_mod_cast h)]
  simp

theorem mul_loop_eq (rs : rs_codec) (hmm : 1 ≤ rs.mm) (hmm16 : rs.mm ≤ 16)
    (hnn : rs.nn = 2 ^ rs.mm - 1) :
    ∀ (fuel n : Nat), n < 4294967296 →
      (rs_modnn_mul_loop rs (u32 rs.nn) fuel n).map i32 = rs_modnn rs fuel (n : Int) := by
  have hN := nn_cast rs hnn
  have h2 := two_le_pow rs.mm hmm
  have h16 : 2 ^ rs.mm ≤ 2 ^ 16 := Nat.pow_le_pow_right (by decide) hmm16
  have hu : u32 rs.nn = 2 ^ rs.mm - 1 := by
    rw [hN]; exact u32_of_nat _ (by norm_num at h16; omega)
  rw [hu]
  intro fuel
  induction fuel with
  | zero =>
    intro n hn
    simp only [rs_modnn_mul_loop, rs_modnn, hN]
    by_cases hge : n ≥ 2 ^ rs.mm - 1
    · rw [if_pos hge, if_pos (by omega)]; rfl
    · rw [if_neg hge, if_neg (by omega)]
      simp only [Option.map_some', i32]
      rw [if_pos (by norm_num at h16; omega)]
  | succ f ih =>
    intro n hn
    simp only [rs_modnn_mul_loop, rs_modnn]
    by_cases hge : n ≥ 2 ^ rs.mm - 1
    · rw [if_pos hge, if_pos (by rw [hN]; omega)]
      have hsub : mul_sub_exact (2 ^ rs.mm - 1) n = ((n - (2 ^ rs.mm - 1) : Nat) : Int) := by
        unfold mul_sub_exact; omega
      have hfold : mul_fold_exact rs (2 ^ rs.mm - 1) (n - (2 ^ rs.mm - 1))
          = (n - (2 ^ rs.mm - 1)) / 2 ^ rs.mm + (n - (2 ^ rs.mm - 1)) % 2 ^ rs.mm := by
        unfold mul_fold_exact
        rw [Nat.shiftRight_eq_div_pow, Nat.and_pow_two_sub_one_eq_mod]
      have hle := fold_le rs.mm (n - (2 ^ rs.mm - 1))
      rw [hsub, u32_of_nat _ (by omega), hfold, Nat.mod_eq_of_lt (by omega),
        ih _ (by omega), hN, modnn_body_nat rs.mm n hge]
    · rw [if_neg hge, if_neg (by rw [hN]; omega)]
      simp only [Option.map_some', i32]
      rw [if_pos (by norm_num at h16; omega)]

/-- The range test of the encoder gives the same verdict on the wrapped 32-bit
value of `pad` as on its exact value, for every `int` length. -/
theorem pad_test_wrap (nn nroots len : Int) (h0 : 0 ≤ nroots) (h1 : nroots ≤ nn)
    (h2 : nn < 2147483648) (hl : -2147483648 ≤ len) (hl' : len < 2147483648) :
    (i32 (u32 (nn - nroots - len)) < 0 ∨ i32 (u32 (nn - nroots - len)) ≥ nn)
      ↔ (nn - nroots - len < 0 ∨ nn - nroots - len ≥ nn) := by
  unfold i32 u32
  split_ifs with h <;> omega

/-! ## Claims on the modulo helpers -/

/-- C3: for `mm ≥ 1`, `nn = 2^mm - 1` and every `x ≥ 0`, the loop of `rs_modnn`
ends within `x` iterations and returns `x mod nn`, a value in `[0, nn)`. -/
theorem rs_modnn_eq_mod (rs : rs_codec) (x : Int) (fuel : Nat)
    (hmm : 1 ≤ rs.mm) (hnn : rs.nn = 2 ^ rs.mm - 1) (hx : 0 ≤ x)
    (hfuel : x.toNat ≤ fuel) :
    rs_modnn rs fuel x = some (x % rs.nn) ∧ 0 ≤ x % rs.nn ∧ x % rs.nn < rs.nn := by
  have h2 := two_le_pow rs.mm hmm
  have hN := nn_cast rs hnn
  have hpos : 0 < rs.nn := by rw [hN]; omega
  refine ⟨?_, Int.emod_nonneg _ (by omega), Int.emod_lt_of_pos _ hpos⟩
  have hcast : x = ((x.toNat : Nat) : Int) := (Int.toNat_of_nonneg hx).symm
  rw [hcast]
  exact rs_modnn_nat rs hmm hnn fuel x.toNat hfuel

/-- Witness of C3 on the GF(8) codec: `rs_modnn` reduces 100 modulo 7. -/
theorem rs_modnn_eq_mod_witness :
    rs_modnn gf8_codec 100 100 = some (100 % gf8_codec.nn)
      ∧ 0 ≤ (100 : Int) % gf8_codec.nn ∧ (100 : Int) % gf8_codec.nn < gf8_codec.nn :=
  rs_modnn_eq_mod gf8_codec 100 100 (by decide) (by decide) (by decide) (by decide)

/-- C4: for `mm ≥ 1`, `nn = 2^mm - 1` and `0 ≤ x < 2*nn`, `rs_modnn_fast` returns
what `rs_modnn` returns (which needs at most one iteration), namely `x mod nn`. -/
theorem rs_modnn_fast_eq_rs_modnn (rs : rs_codec) (x : Int) (fuel : Nat)
    (hmm : 1 ≤ rs.mm) (hnn : rs.nn = 2 ^ rs.mm - 1) (hx0 : 0 ≤ x) (hx : x < 2 * rs.nn)
    (hfuel : 1 ≤ fuel) :
    rs_modnn rs fuel x = some (rs_modnn_fast rs x) ∧ rs_modnn_fast rs x = x % rs.nn := by
  have h2 := two_le_pow rs.mm hmm
  have hN := nn_cast rs hnn
  have hpos : 0 < rs.nn := by rw [hN]; omega
  have hfast := rs_modnn_fast_mod rs x hx0 hx
  refine ⟨?_, hfast⟩
  obtain ⟨f, rfl⟩ : ∃ f, fuel = f + 1 := ⟨fuel - 1, by omega⟩
  have hlt : rs_modnn_fast rs x < rs.nn := by rw [hfast]; exact Int.emod_lt_of_pos _ hpos
  have hstop : ∀ g, rs_modnn rs g (rs_modnn_fast rs x) = some (rs_modnn_fast rs x) := by
    intro g
    cases g <;> simp only [rs_modnn] <;> rw [if_neg (by omega)]
  by_cases hge : x ≥ rs.nn
  · have hcast : x = ((x.toNat : Nat) : Int) := (Int.toNat_of_nonneg hx0).symm
    have hfx : rs_modnn_fast rs x = x - rs.nn := by
      unfold rs_modnn_fast; rw [if_neg (by omega)]
    have hbody : ((x - rs.nn) >>> rs.mm) + Int.land (x - rs.nn) rs.nn = x - rs.nn := by
      rw [hcast, hN, modnn_body_nat rs.mm x.toNat (by omega)]
      have hsmall : x.toNat - (2 ^ rs.mm - 1) < 2 ^ rs.mm := by omega
      rw [Nat.div_eq_of_lt hsmall, Nat.mod_eq_of_lt hsmall]
      omega
    simp only [rs_modnn]
    rw [if_pos hge, hbody, ← hfx]
    exact hstop f
  · have hfx : rs_modnn_fast rs x = x := by
      unfold rs_modnn_fast; rw [if_pos (by omega)]
    rw [hfx] at hstop ⊢
    exact hstop (f + 1)

/-- Witness of C4 on the GF(8) codec at `x = 12`, in the range `[nn, 2*nn)`. -/
theorem rs_modnn_fast_eq_rs_modnn_witness :
    rs_modnn gf8_codec 1 12 = some (rs_modnn_fast gf8_codec 12)
      ∧ rs_modnn_fast gf8_codec 12 = 12 % gf8_codec.nn :=
  rs_modnn_fast_eq_rs_modnn gf8_codec 12 1 (by decide) (by decide) (by decide) (by decide)
    (by decide)

/-- C5: for `1 ≤ mm ≤ 16`, `nn = 2^mm - 1` and `0 ≤ a, b ≤ nn`: the `uint32_t`
product is the exact product; in the loop neither `x - nn` nor
`(x >> mm) + (x & nn)` leaves the `uint32_t` range for any `x ≥ nn`; with every
iteration bound `rs_modnn_mul` returns what `rs_modnn` returns on the exact
product; and within `a*b` iterations this is `(a*b) mod nn`. -/
theorem rs_modnn_mul_eq (rs : rs_codec) (a b : Int)
    (hmm : 1 ≤ rs.mm) (hmm16 : rs.mm ≤ 16) (hnn : rs.nn = 2 ^ rs.mm - 1)
    (ha0 : 0 ≤ a) (ha : a ≤ rs.nn) (hb0 : 0 ≤ b) (hb : b ≤ rs.nn) :
    (((u32 a * u32 b) % 4294967296 : Nat) : Int) = a * b
    ∧ (∀ x : Nat, x < 4294967296 → u32 rs.nn ≤ x →
        0 ≤ mul_sub_exact (u32 rs.nn) x ∧ mul_sub_exact (u32 rs.nn) x < 4294967296
        ∧ mul_fold_exact rs (u32 rs.nn) (u32 (mul_sub_exact (u32 rs.nn) x)) < 4294967296)
    ∧ (∀ fuel, rs_modnn_mul rs fuel a b = rs_modnn rs fuel (a * b))
    ∧ (∀ fuel, (a * b).toNat ≤ fuel → rs_modnn_mul rs fuel a b = some ((a * b) % rs.nn)) := by
  have hN := nn_cast rs hnn
  have h2 := two_le_pow rs.mm hmm
  have h16 : 2 ^ rs.mm ≤ 2 ^ 16 := Nat.pow_le_pow_right (by decide) hmm16
  norm_num at h16
  have hu : u32 rs.nn = 2 ^ rs.mm - 1 := by
    rw [hN]; exact u32_of_nat _ (by omega)
  have hA : a = ((a.toNat : Nat) : Int) := (Int.toNat_of_nonneg ha0).symm
  have hB : b = ((b.toNat : Nat) : Int) := (Int.toNat_of_nonneg hb0).symm
  have hAle : a.toNat ≤ 65535 := by omega
  have hBle : b.toNat ≤ 65535 := by omega
  have hprod : a.toNat * b.toNat < 4294967296 := by
    calc a.toNat * b.toNat ≤ 65535 * 65535 := Nat.mul_le_mul hAle hBle
      _ < 4294967296 := by norm_num
  have hua : u32 a = a.toNat := by rw [hA]; exact u32_of_nat _ (by omega)
  have hub : u32 b = b.toNat := by rw [hB]; exact u32_of_nat _ (by omega)
  have hx0 : (((u32 a * u32 b) % 4294967296 : Nat) : Int) = a * b := by
    rw [hua, hub, Nat.mod_eq_of_lt hprod]
    push_cast
    rw [← hA, ← hB]
  have hloop : ∀ fuel, rs_modnn_mul rs fuel a b = rs_modnn rs fuel (a * b) := by
    intro fuel
    unfold rs_modnn_mul
    rw [mul_loop_eq rs hmm hmm16 hnn fuel _ (Nat.mod_lt _ (by norm_num)), hx0]
  refine ⟨hx0, ?_, hloop, ?_⟩
  · intro x hx hge
    rw [hu] at hge ⊢
    have hsub : mul_sub_exact (2 ^ rs.mm - 1) x = ((x - (2 ^ rs.mm - 1) : Nat) : Int) := by
      unfold mul_sub_exact; omega
    have hfold : mul_fold_exact rs (2 ^ rs.mm - 1) (x - (2 ^ rs.mm - 1))
        = (x - (2 ^ rs.mm - 1)) / 2 ^ rs.mm + (x - (2 ^ rs.mm - 1)) % 2 ^ rs.mm := by
      unfold mul_fold_exact
      rw [Nat.shiftRight_eq_div_pow, Nat.and_pow_two_sub_one_eq_mod]
    have hle := fold_le rs.mm (x - (2 ^ rs.mm - 1))
    rw [hsub, u32_of_nat _ (by omega), hfold]
    omega
  · intro fuel hfuel
    rw [hloop fuel, ← Int.toNat_of_nonneg (mul_nonneg ha0 hb0)]
    exact rs_modnn_nat rs hmm hnn fuel (a * b).toNat hfuel

/-- Witness of C5 on the GF(8) codec: `5 * 6 = 30` reduces to `2` modulo 7. -/
theorem rs_modnn_mul_eq_witness :
    rs_modnn_mul gf8_codec 30 5 6 = some ((5 * 6) % gf8_codec.nn) :=
  (rs_modnn_mul_eq gf8_codec 5 6 (by decide) (by decide) (by decide) (by decide) (by decide)
    (by decide) (by decide)).2.2.2 30 (by decide)

/-! ## Loop rule and the in-place shift -/

/-- Invariant rule for a checked loop over a list of indices. -/
theorem foldlM_inv {α β : Type} (f : β → α → Option β) (l : List α) :
    ∀ (I : Nat → β → Prop) (b : β), I 0 b →
      (∀ (k : Nat) (hk : k < l.length) (s : β), I k s →
        ∃ s', f s (l.get ⟨k, hk⟩) = some s' ∧ I (k + 1) s') →
      ∃ s', l.foldlM f b = some s' ∧ I l.length s' := by
  induction l with
  | nil => intro I b h0 _; exact ⟨b, rfl, h0⟩
  | cons a t ih =>
    intro I b h0 hstep
    obtain ⟨s1, hs1, hI1⟩ := hstep 0 (by simp) b h0
    have := ih (fun k s => I (k + 1) s) s1 hI1 (fun k hk s hI =>
      hstep (k + 1) (by simp; omega) s hI)
    obtain ⟨s', hs', hI'⟩ := this
    refine ⟨s', ?_, hI'⟩
    simp only [List.foldlM, List.get] at hs1 ⊢
    show (f b a).bind _ = _
    rw [hs1]
    exact hs'

theorem rd_nat (a : List Nat) (i : Nat) : rd a (i : Int) = a[i]? := by
  unfold rd
  rw [if_neg (by omega)]
  simp

theorem rd_some_of_lt (a : List Nat) (i : Nat) (h : i < a.length) :
    rd a (i : Int) = some (a.getD i 0) := by
  rw [rd_nat, List.getD_eq_getElem?_getD, List.getElem?_eq_getElem h]
  rfl

theorem wr_nat (a : List Nat) (i : Nat) (v : Nat) (h : i < a.length) :
    wr a (i : Int) v = some (a.set i v) := by
  unfold wr
  rw [if_pos ⟨by omega, by omega⟩]
  simp

/-- An in-place loop `for (j = 1; j < n; j++) par[j-1] = val j par[j]` on a
buffer of `n` cells. -/
theorem shift_loop_spec (body : List Nat → Nat → Option (List Nat)) (val : Nat → Nat → Nat)
    (par : List Nat) (n : Nat) (hlen : par.length = n)
    (hbody : ∀ (p : List Nat) (j : Nat), 1 ≤ j → j < n → p.length = n →
      body p j = some (p.set (j - 1) (val j (p.getD j 0)))) :
    ∃ p', (List.range' 1 (n - 1)).foldlM body par = some p' ∧ p'.length = n
      ∧ (∀ k, k + 1 < n → p'.getD k 0 = val (k + 1) (par.getD (k + 1) 0))
      ∧ p'.getD (n - 1) 0 = par.getD (n - 1) 0 := by
  have := foldlM_inv body (List.range' 1 (n - 1))
    (fun m p => p.length = n ∧ (∀ k, k < m → p.getD k 0 = val (k + 1) (par.getD (k + 1) 0))
      ∧ (∀ k, m ≤ k → p.getD k 0 = par.getD k 0)) par
    ⟨hlen, fun k hk => absurd hk (by omega), fun k _ => rfl⟩
    (by
      intro m hm p ⟨hpl, hlo, hhi⟩
      rw [List.length_range'] at hm
      have hget : (List.range' 1 (n - 1)).get ⟨m, by rw [List.length_range']; exact hm⟩ = 1 + m := by
        simp
      rw [hget, hbody p (1 + m) (by omega) (by omega) hpl]
      refine ⟨_, rfl, ?_, ?_, ?_⟩
      · simp [hpl]
      · intro k hk
        have e : 1 + m - 1 = m := by omega
        rw [e]
        by_cases hkm : k = m
        · subst hkm
          rw [List.getD_eq_getElem?_getD, List.getElem?_set_self (by omega)]
          simp only [Option.getD_some]
          rw [hhi (1 + k) (by omega), Nat.add_comm]
        · rw [List.getD_eq_getElem?_getD, List.getElem?_set_ne (by omega),
            ← List.getD_eq_getElem?_getD]
          exact hlo k (by omega)
      · intro k hk
        have e : 1 + m - 1 = m := by omega
        rw [e, List.getD_eq_getElem?_getD, List.getElem?_set_ne (by omega),
          ← List.getD_eq_getElem?_getD]
        exact hhi k (by omega))
  obtain ⟨p', hp', hpl, hlo, hhi⟩ := this
  rw [List.length_range'] at hlo hhi
  exact ⟨p', hp', hpl, fun k hk => hlo k (by omega), hhi (n - 1) (le_refl _)⟩

/-! ## One encoder step, value level -/

theorem list_eq_of_getD (p q : List Nat) (hl : p.length = q.length)
    (h : ∀ k, k < p.length → p.getD k 0 = q.getD k 0) : p = q := by
  apply List.ext_getElem hl
  intro k h1 h2
  have := h k h1
  rw [List.getD_eq_getElem?_getD, List.getD_eq_getElem?_getD,
    List.getElem?_eq_getElem h1, List.getElem?_eq_getElem h2] at this
  simpa using this

theorem shifted_length (n : Nat) (c : Nat → Nat) (par : List Nat) :
    (shifted n c par).length = n := by
  simp [shifted]

theorem shifted_getD (n : Nat) (c : Nat → Nat) (par : List Nat) (k : Nat) (hk : k < n) :
    (shifted n c par).getD k 0 = par.getD (k + 1) 0 ^^^ c (n - 1 - k) := by
  rw [List.getD_eq_getElem?_getD]
  simp [shifted, hk]

/-- The in-place shift followed by the store to `par[nroots - 1]` produces the
shifted register. -/
theorem shift_then_store (body : List Nat → Nat → Option (List Nat)) (c : Nat → Nat)
    (par : List Nat) (n : Nat) (hn1 : 1 ≤ n) (hlen : par.length = n)
    (hbody : ∀ (p : List Nat) (j : Nat), 1 ≤ j → j < n → p.length = n →
      body p j = some (p.set (j - 1) (p.getD j 0 ^^^ c (n - j)))) :
    ∃ p', (List.range' 1 (n - 1)).foldlM body par = some p' ∧ p'.length = n
      ∧ p'.set (n - 1) (c 0) = shifted n c par := by
  obtain ⟨p', hp', hpl, hlo, _⟩ :=
    shift_loop_spec body (fun j pj => pj ^^^ c (n - j)) par n hlen hbody
  refine ⟨p', hp', hpl, ?_⟩
  apply list_eq_of_getD
  · simp [hpl, shifted_length]
  · intro k hk
    simp only [List.length_set, hpl] at hk
    rw [shifted_getD n c par k hk]
    by_cases hkn : k = n - 1
    · subst hkn
      rw [List.getD_eq_getElem?_getD, List.getElem?_set_self (by omega)]
      have e1 : n - 1 + 1 = n := by omega
      have e2 : n - 1 - (n - 1) = 0 := by omega
      rw [e1, e2, List.getD_eq_default _ _ (by omega)]
      simp
    · rw [List.getD_eq_getElem?_getD, List.getElem?_set_ne (by omega),
        ← List.getD_eq_getElem?_getD, hlo k (by omega)]
      have e : n - (k + 1) = n - 1 - k := by omega
      rw [e]

theorem shift_feedback_spec (rs : rs_codec) (par : List Nat) (n fb : Nat) (c : Nat → Nat)
    (hn : rs.nroots = (n : Int)) (hn1 : 1 ≤ n) (hlen : par.length = n)
    (hc : ∀ k, k < n → gen_term rs fb (k : Int) = some (c k)) :
    ∃ p', shift_feedback rs fb par = some p' ∧ p'.length = n
      ∧ p'.set (n - 1) (c 0) = shifted n c par := by
  have hcnt : (rs.nroots - 1).toNat = n - 1 := by omega
  unfold shift_feedback
  rw [hcnt]
  apply shift_then_store _ c par n hn1 hlen
  intro p j hj1 hjn hpl
  have e1 : rs.nroots - (j : Int) = ((n - j : Nat) : Int) := by omega
  have e2 : (j : Int) - 1 = ((j - 1 : Nat) : Int) := by omega
  simp only [Option.bind_eq_bind, rd_some_of_lt p j (by omega), e1, hc (n - j) (by omega),
    e2, wr_nat p (j - 1) _ (by omega), Option.some_bind]

theorem shift_plain_spec (rs : rs_codec) (par : List Nat) (n : Nat)
    (hn : rs.nroots = (n : Int)) (hn1 : 1 ≤ n) (hlen : par.length = n) :
    ∃ p', shift_plain rs par = some p' ∧ p'.length = n
      ∧ p'.set (n - 1) 0 = shifted n (fun _ => 0) par := by
  have hcnt : (rs.nroots - 1).toNat = n - 1 := by omega
  unfold shift_plain
  rw [hcnt]
  apply shift_then_store _ (fun _ => 0) par n hn1 hlen
  intro p j hj1 hjn hpl
  have e2 : (j : Int) - 1 = ((j - 1 : Nat) : Int) := by omega
  simp only [Option.bind_eq_bind, rd_some_of_lt p j (by omega),
    e2, wr_nat p (j - 1) _ (by omega), Option.some_bind, Nat.xor_zero]

theorem encode_rs_step_feedback (rs : rs_codec) (data : List Nat) (invmsk : Nat)
    (par : List Nat) (i n d fb : Nat) (c : Nat → Nat)
    (hn : rs.nroots = (n : Int)) (hn1 : 1 ≤ n) (hlen : par.length = n)
    (hd : rd data (i : Int) = some d)
    (hfb : rd rs.index_of (fb_index rs d invmsk (par.getD 0 0) : Nat) = some fb)
    (hne : (fb : Int) ≠ rs.nn)
    (hc : ∀ k, k < n → gen_term rs fb (k : Int) = some (c k)) :
    encode_rs_step rs data invmsk par i = some (shifted n c par) := by
  have hp0 : rd par 0 = some (par.getD 0 0) := rd_some_of_lt par 0 (by omega)
  obtain ⟨p', hp', hpl, hset⟩ := shift_feedback_spec rs par n fb c hn hn1 hlen hc
  have hlast : rs.nroots - 1 = ((n - 1 : Nat) : Int) := by omega
  have h0 : gen_term rs fb 0 = some (c 0) := hc 0 (by omega)
  simp only [encode_rs_step, Option.bind_eq_bind, Option.some_bind, hd, hp0, hfb, if_pos hne,
    hp', h0, hlast, wr_nat p' (n - 1) _ (by omega), hset]

theorem encode_rs_step_zero (rs : rs_codec) (data : List Nat) (invmsk : Nat)
    (par : List Nat) (i n d fb : Nat)
    (hn : rs.nroots = (n : Int)) (hn1 : 1 ≤ n) (hlen : par.length = n)
    (hd : rd data (i : Int) = some d)
    (hfb : rd rs.index_of (fb_index rs d invmsk (par.getD 0 0) : Nat) = some fb)
    (heq : (fb : Int) = rs.nn) :
    encode_rs_step rs data invmsk par i = some (shifted n (fun _ => 0) par) := by
  have hp0 : rd par 0 = some (par.getD 0 0) := rd_some_of_lt par 0 (by omega)
  obtain ⟨p', hp', hpl, hset⟩ := shift_plain_spec rs par n hn hn1 hlen
  have hlast : rs.nroots - 1 = ((n - 1 : Nat) : Int) := by omega
  have hnn : ¬ ((fb : Int) ≠ rs.nn) := by simp [heq]
  simp only [encode_rs_step, Option.bind_eq_bind, Option.some_bind, hd, hp0, hfb, if_neg hnn,
    hp', hlast, wr_nat p' (n - 1) _ (by omega), hset]

/-! ## Bounds on symbols and table indices -/

theorem u16_nat (d : Nat) : u16 (d : Int) = d % 65536 := by
  unfold u16
  have : ((d : Int) % 65536) = ((d % 65536 : Nat) : Int) := by norm_cast
  rw [this, Int.toNat_ofNat]

theorem le_mask_iff (m x : Nat) : x ≤ 2 ^ m - 1 ↔ x < 2 ^ m := by
  have := @Nat.one_le_two_pow m
  omega

theorem xor_le_mask (m a b : Nat) (ha : a ≤ 2 ^ m - 1) (hb : b ≤ 2 ^ m - 1) :
    a ^^^ b ≤ 2 ^ m - 1 := by
  rw [le_mask_iff] at *
  exact Nat.xor_lt_two_pow ha hb

theorem fb_index_le (rs : rs_codec) (d invmsk p0 : Nat) (hnn : rs.nn = 2 ^ rs.mm - 1)
    (hp0 : p0 ≤ 2 ^ rs.mm - 1) : fb_index rs d invmsk p0 ≤ 2 ^ rs.mm - 1 := by
  unfold fb_index
  apply xor_le_mask _ _ _ _ hp0
  rw [nn_cast rs hnn, u16_nat]
  exact le_trans Nat.and_le_right (Nat.mod_le _ _)

/-- The table value used for generator coefficient `k`, when `fb` is a proper
logarithm: the fast modulo is the true remainder and the lookup is in bounds. -/
theorem gen_term_ok (rs : rs_codec) (fb k : Nat) (hnn : rs.nn = 2 ^ rs.mm - 1)
    (hfb : fb < 2 ^ rs.mm - 1) (hk : k < rs.genpoly.length)
    (hg : rs.genpoly.getD k 0 ≤ 2 ^ rs.mm - 1)
    (ha : 2 ^ rs.mm - 1 ≤ rs.alpha_to.length) :
    gen_term rs fb (k : Int)
      = some (rs.alpha_to.getD ((fb + rs.genpoly.getD k 0) % (2 ^ rs.mm - 1)) 0) := by
  have hN := nn_cast rs hnn
  have hfast : rs_modnn_fast rs ((fb : Int) + (rs.genpoly.getD k 0 : Int))
      = (((fb + rs.genpoly.getD k 0) % (2 ^ rs.mm - 1) : Nat) : Int) := by
    rw [rs_modnn_fast_mod rs _ (by omega) (by omega), hN]
    norm_cast
  have hlt : (fb + rs.genpoly.getD k 0) % (2 ^ rs.mm - 1) < rs.alpha_to.length :=
    lt_of_lt_of_le (Nat.mod_lt _ (by omega)) ha
  simp only [gen_term, Option.bind_eq_bind, rd_some_of_lt _ k hk, Option.some_bind, hfast,
    rd_some_of_lt _ _ hlt]

theorem getD_le_of_all (l : List Nat) (N k : Nat) (h : ∀ x ∈ l, x ≤ N) : l.getD k 0 ≤ N := by
  by_cases hk : k < l.length
  · rw [List.getD_eq_getElem _ _ hk]
    exact h _ (List.getElem_mem _)
  · rw [List.getD_eq_default _ _ (by omega)]
    exact Nat.zero_le _

theorem shifted_le (m n : Nat) (c : Nat → Nat) (par : List Nat)
    (hc : ∀ k, c k ≤ 2 ^ m - 1) (hp : ∀ x ∈ par, x ≤ 2 ^ m - 1) :
    ∀ x ∈ shifted n c par, x ≤ 2 ^ m - 1 := by
  intro x hx
  simp only [shifted, List.mem_map, List.mem_range] at hx
  obtain ⟨k, _, rfl⟩ := hx
  exact xor_le_mask _ _ _ (getD_le_of_all par _ _ hp) (hc _)

/-- One step of the encoder on well-formed buffers stays inside the buffers and
keeps the parity symbols inside the field. -/
theorem encode_rs_step_safe (rs : rs_codec) (data : List Nat) (invmsk : Nat)
    (par : List Nat) (i n : Nat) (hnn : rs.nn = 2 ^ rs.mm - 1)
    (hn : rs.nroots = (n : Int)) (hn1 : 1 ≤ n)
    (halen : 2 ^ rs.mm - 1 ≤ rs.alpha_to.length)
    (ha : ∀ x ∈ rs.alpha_to, x ≤ 2 ^ rs.mm - 1)
    (hilen : 2 ^ rs.mm - 1 < rs.index_of.length)
    (hi : ∀ x ∈ rs.index_of, x ≤ 2 ^ rs.mm - 1)
    (hglen : n ≤ rs.genpoly.length)
    (hg : ∀ x ∈ rs.genpoly, x ≤ 2 ^ rs.mm - 1)
    (hdata : i < data.length)
    (hlen : par.length = n) (hp : ∀ x ∈ par, x ≤ 2 ^ rs.mm - 1) :
    ∃ par', encode_rs_step rs data invmsk par i = some par' ∧ par'.length = n
      ∧ ∀ x ∈ par', x ≤ 2 ^ rs.mm - 1 := by
  have hN := nn_cast rs hnn
  have hd := rd_some_of_lt data i hdata
  have hidx := fb_index_le rs (data.getD i 0) invmsk (par.getD 0 0) hnn
    (getD_le_of_all par _ _ hp)
  have hfb := rd_some_of_lt rs.index_of _ (lt_of_le_of_lt hidx hilen)
  have hfble := getD_le_of_all rs.index_of (2 ^ rs.mm - 1)
    (fb_index rs (data.getD i 0) invmsk (par.getD 0 0)) hi
  by_cases hz : ((rs.index_of.getD (fb_index rs (data.getD i 0) invmsk (par.getD 0 0)) 0 : Nat)
      : Int) = rs.nn
  · rw [encode_rs_step_zero rs data invmsk par i n _ _ hn hn1 hlen hd hfb hz]
    exact ⟨_, rfl, shifted_length _ _ _, shifted_le _ _ _ _ (fun _ => Nat.zero_le _) hp⟩
  · have hlt : rs.index_of.getD (fb_index rs (data.getD i 0) invmsk (par.getD 0 0)) 0
        < 2 ^ rs.mm - 1 := by
      rw [hN] at hz
      have : rs.index_of.getD (fb_index rs (data.getD i 0) invmsk (par.getD 0 0)) 0
          ≠ 2 ^ rs.mm - 1 := fun h => hz (by rw [h])
      omega
    rw [encode_rs_step_feedback rs data invmsk par i n _ _
      (fun k => rs.alpha_to.getD
        ((rs.index_of.getD (fb_index rs (data.getD i 0) invmsk (par.getD 0 0)) 0
          + rs.genpoly.getD k 0) % (2 ^ rs.mm - 1)) 0)
      hn hn1 hlen hd hfb hz
      (fun k hk => gen_term_ok rs _ k hnn hlt (by omega) (getD_le_of_all _ _ _ hg) halen)]
    exact ⟨_, rfl, shifted_length _ _ _,
      shifted_le _ _ _ _ (fun _ => getD_le_of_all _ _ _ ha) hp⟩

/-- The loop over the data symbols on well-formed buffers runs to completion. -/
theorem encode_rs_loop_safe (rs : rs_codec) (data : List Nat) (len : Int) (invmsk : Nat)
    (par : List Nat) (n : Nat) (hnn : rs.nn = 2 ^ rs.mm - 1)
    (hn : rs.nroots = (n : Int)) (hn1 : 1 ≤ n)
    (halen : 2 ^ rs.mm - 1 ≤ rs.alpha_to.length)
    (ha : ∀ x ∈ rs.alpha_to, x ≤ 2 ^ rs.mm - 1)
    (hilen : 2 ^ rs.mm - 1 < rs.index_of.length)
    (hi : ∀ x ∈ rs.index_of, x ≤ 2 ^ rs.mm - 1)
    (hglen : n ≤ rs.genpoly.length)
    (hg : ∀ x ∈ rs.genpoly, x ≤ 2 ^ rs.mm - 1)
    (hdata : len ≤ (data.length : Int))
    (hlen : par.length = n) (hp : ∀ x ∈ par, x ≤ 2 ^ rs.mm - 1) :
    ∃ par', encode_rs_loop rs data len invmsk par = some par' ∧ par'.length = n
      ∧ ∀ x ∈ par', x ≤ 2 ^ rs.mm - 1 := by
  obtain ⟨p', h1, h2, h3⟩ := foldlM_inv (encode_rs_step rs data invmsk) (List.range len.toNat)
    (fun _ p => p.length = n ∧ ∀ x ∈ p, x ≤ 2 ^ rs.mm - 1) par ⟨hlen, hp⟩ (by
      intro k hk s ⟨hsl, hsp⟩
      rw [List.length_range] at hk
      have hget : (List.range len.toNat).get ⟨k, by rw [List.length_range]; exact hk⟩ = k := by
        simp
      rw [hget]
      exact encode_rs_step_safe rs data invmsk s k n hnn hn hn1 halen ha hilen hi hglen hg
        (by omega) hsl hsp)
  exact ⟨p', h1, h2, h3⟩

/-! ## Claims on the range check and on memory safety -/

theorem encode_rs_of_range_error (rs : rs_codec) (data : List Nat) (len : Int)
    (par : List Nat) (invmsk : Nat)
    (h : rs.nn - rs.nroots - len < 0 ∨ rs.nn - rs.nroots - len ≥ rs.nn) :
    encode_rs rs data len par invmsk = some ⟨-ERANGE, data, par⟩ := by
  unfold encode_rs
  simp only [if_pos h]

theorem encode_rs_of_in_range (rs : rs_codec) (data : List Nat) (len : Int)
    (par : List Nat) (invmsk : Nat)
    (h : ¬ (rs.nn - rs.nroots - len < 0 ∨ rs.nn - rs.nroots - len ≥ rs.nn)) :
    encode_rs rs data len par invmsk
      = (encode_rs_loop rs data len invmsk par).map (fun p => ⟨0, data, p⟩) := by
  unfold encode_rs
  simp only [if_neg h]

/-- The run on buffers that satisfy `bufs_ok` with at least one parity symbol. -/
theorem encode_rs_loop_of_bufs_ok (rs : rs_codec) (data : List Nat) (len : Int)
    (par : List Nat) (invmsk : Nat) (h : bufs_ok rs data len par) (h1 : 1 ≤ rs.nroots) :
    ∃ par', encode_rs_loop rs data len invmsk par = some par' ∧ par'.length = par.length
      ∧ ∀ x ∈ par', (x : Int) ≤ rs.nn := by
  obtain ⟨_, hnn, _, _, hal, ha, hil, hi, hgl, hg, hdl, hpl, hp⟩ := h
  have hN := nn_cast rs hnn
  rw [hN] at hal ha hil hi hg hp
  obtain ⟨p', e, l, b⟩ := encode_rs_loop_safe rs data len invmsk par rs.nroots.toNat hnn
    (by omega) (by omega) (by omega) (fun x hx => by exact_mod_cast ha x hx) (by omega)
    (fun x hx => by exact_mod_cast hi x hx) (by omega)
    (fun x hx => by exact_mod_cast hg x hx) (by omega) (by omega)
    (fun x hx => by exact_mod_cast hp x hx)
  refine ⟨p', e, by omega, fun x hx => ?_⟩
  rw [hN]
  exact_mod_cast b x hx

/-- The run on buffers that satisfy `call_ok`. -/
theorem encode_rs_loop_of_call_ok (rs : rs_codec) (data : List Nat) (len : Int)
    (par : List Nat) (invmsk : Nat) (h : call_ok rs data len par) :
    ∃ par', encode_rs_loop rs data len invmsk par = some par' := by
  obtain ⟨hnn, h1, hal, ha, hil, hi, hgl, hg, hdl, hpl, hp⟩ := h
  have hN := nn_cast rs hnn
  rw [hN] at hal ha hil hi hg hp
  obtain ⟨p', e, _, _⟩ := encode_rs_loop_safe rs data len invmsk par rs.nroots.toNat hnn
    (by omega) (by omega) (by omega) (fun x hx => by exact_mod_cast ha x hx) (by omega)
    (fun x hx => by exact_mod_cast hi x hx) (by omega)
    (fun x hx => by exact_mod_cast hg x hx) hdl (by omega)
    (fun x hx => by exact_mod_cast hp x hx)
  exact ⟨p', e⟩

/-- C2 as stated fails: with `nroots = 0` and `len = 2` the range check passes
(`pad = 5`), the buffers have the contracted shape, and the first iteration
reads `par[0]` of an empty parity buffer, so the call returns neither 0 nor
anything else. -/
theorem encode_rs_in_range_without_result :
    ¬ (gf8_noroots.nn - gf8_noroots.nroots - 2 < 0
        ∨ gf8_noroots.nn - gf8_noroots.nroots - 2 ≥ gf8_noroots.nn)
    ∧ bufs_ok gf8_noroots [2, 3] 2 []
    ∧ encode_rs gf8_noroots [2, 3] 2 [] 0 = none
    ∧ ¬ ∃ r, encode_rs gf8_noroots [2, 3] 2 [] 0 = some r ∧ r.ret = 0 := by
  have hnone : encode_rs gf8_noroots [2, 3] 2 [] 0 = none := by decide
  refine ⟨by decide, by unfold bufs_ok; decide, hnone, ?_⟩
  rw [hnone]
  rintro ⟨_, h, _⟩
  exact Option.noConfusion h

/-- C2, amended: the encoder returns `-ERANGE`, leaving the buffers as they were,
exactly when `pad = nn - nroots - len` is negative or at least `nn`, that is
when `len + nroots > nn` or `len + nroots ≤ 0`; in every other case it returns
no value other than 0, and it does return 0 on buffers that satisfy `call_ok`
(`nroots ≥ 1`, tables and parity buffer of the contracted size, at least `len`
data symbols); in particular it fails when `len + nroots > nn` or
`len + nroots < 0`. -/
theorem encode_rs_range_check (rs : rs_codec) (data : List Nat) (len : Int)
    (par : List Nat) (invmsk : Nat) :
    (encode_rs rs data len par invmsk = some ⟨-ERANGE, data, par⟩
      ↔ (rs.nn - rs.nroots - len < 0 ∨ rs.nn - rs.nroots - len ≥ rs.nn))
    ∧ ((rs.nn - rs.nroots - len < 0 ∨ rs.nn - rs.nroots - len ≥ rs.nn)
      ↔ (len + rs.nroots > rs.nn ∨ len + rs.nroots ≤ 0))
    ∧ (¬ (rs.nn - rs.nroots - len < 0 ∨ rs.nn - rs.nroots - len ≥ rs.nn) →
        (∀ r, encode_rs rs data len par invmsk = some r → r.ret = 0)
        ∧ (call_ok rs data len par →
            ∃ par', encode_rs rs data len par invmsk = some ⟨0, data, par'⟩))
    ∧ ((len + rs.nroots > rs.nn ∨ len + rs.nroots < 0) →
        encode_rs rs data len par invmsk = some ⟨-ERANGE, data, par⟩) := by
  refine ⟨⟨fun h => ?_, encode_rs_of_range_error rs data len par invmsk⟩,
    ⟨fun h => by omega, fun h => by omega⟩, fun h => ⟨fun r hr => ?_, fun hb => ?_⟩,
    fun h => encode_rs_of_range_error rs data len par invmsk (by omega)⟩
  · by_contra hc
    rw [encode_rs_of_in_range rs data len par invmsk hc] at h
    cases hl : encode_rs_loop rs data len invmsk par with
    | none => rw [hl] at h; simp at h
    | some p =>
      rw [hl] at h
      simp only [Option.map_some', Option.some.injEq, enc_result.mk.injEq] at h
      exact absurd h.1 (by decide)
  · rw [encode_rs_of_in_range rs data len par invmsk h] at hr
    cases hl : encode_rs_loop rs data len invmsk par with
    | none => rw [hl] at hr; simp at hr
    | some p =>
      rw [hl] at hr
      simp only [Option.map_some', Option.some.injEq] at hr
      rw [← hr]
  · obtain ⟨p', e⟩ := encode_rs_loop_of_call_ok rs data len par invmsk hb
    exact ⟨p', by rw [encode_rs_of_in_range rs data len par invmsk h, e]; rfl⟩

/-- Witness of C2 (amended) on the GF(8) codec: four of five data symbols pass
the range check and the encoder returns 0; so does the length `-1` with two
parity symbols. -/
theorem encode_rs_range_check_witness :
    (∃ par', encode_rs gf8_codec [1, 2, 3, 4, 5] 4 [0, 0] 0
        = some ⟨0, [1, 2, 3, 4, 5], par'⟩)
    ∧ (∃ par', encode_rs gf8_codec [1, 2, 3] (-1) [3, 5] 0 = some ⟨0, [1, 2, 3], par'⟩) :=
  ⟨((encode_rs_range_check gf8_codec [1, 2, 3, 4, 5] 4 [0, 0] 0).2.2.1 (by decide)).2
      (by unfold call_ok; decide),
    ((encode_rs_range_check gf8_codec [1, 2, 3] (-1) [3, 5] 0).2.2.1 (by decide)).2
      (by unfold call_ok; decide)⟩

/-- C6 as stated fails: with `nroots = 0` the buffers satisfy every listed
condition, a data block of one symbol passes the range check, and the first
iteration reads `par[0]` of an empty parity buffer. -/
theorem encode_rs_no_parity_out_of_bounds :
    bufs_ok gf8_noroots [1] 1 [] ∧ encode_rs gf8_noroots [1] 1 [] 0 = none
    ∧ ¬ (encode_rs gf8_noroots [1] 1 [] 0 = some ⟨-ERANGE, [1], []⟩
        ∨ ∃ par', encode_rs gf8_noroots [1] 1 [] 0 = some ⟨0, [1], par'⟩) := by
  have hnone : encode_rs gf8_noroots [1] 1 [] 0 = none := by decide
  refine ⟨by unfold bufs_ok; decide, hnone, ?_⟩
  rw [hnone]
  rintro (h | ⟨_, h⟩) <;> exact Option.noConfusion h

/-- C6, amended to `1 ≤ nroots ≤ nn`: on buffers of the contracted shape the
encoder ends in the range error or in success, every array access having been
inside its buffer; the parity buffer keeps its `nroots` cells and its symbols
stay at most `nn`. -/
theorem encode_rs_in_bounds (rs : rs_codec) (data : List Nat) (len : Int)
    (par : List Nat) (invmsk : Nat) (h : bufs_ok rs data len par) (h1 : 1 ≤ rs.nroots) :
    encode_rs rs data len par invmsk = some ⟨-ERANGE, data, par⟩
    ∨ ∃ par', encode_rs rs data len par invmsk = some ⟨0, data, par'⟩
        ∧ par'.length = par.length ∧ ∀ x ∈ par', (x : Int) ≤ rs.nn := by
  by_cases hr : rs.nn - rs.nroots - len < 0 ∨ rs.nn - rs.nroots - len ≥ rs.nn
  · exact Or.inl (encode_rs_of_range_error rs data len par invmsk hr)
  · obtain ⟨p', e, l, b⟩ := encode_rs_loop_of_bufs_ok rs data len par invmsk h h1
    exact Or.inr ⟨p', by rw [encode_rs_of_in_range rs data len par invmsk hr, e]; rfl, l, b⟩

/-- Witness of C6 (amended) on the GF(8) codec with two parity symbols. -/
theorem encode_rs_in_bounds_witness :
    encode_rs gf8_codec [1, 2, 3, 4, 5] 5 [0, 0] 9
        = some ⟨-ERANGE, [1, 2, 3, 4, 5], [0, 0]⟩
    ∨ ∃ par', encode_rs gf8_codec [1, 2, 3, 4, 5] 5 [0, 0] 9 = some ⟨0, [1, 2, 3, 4, 5], par'⟩
        ∧ par'.length = [0, 0].length ∧ ∀ x ∈ par', (x : Int) ≤ gf8_codec.nn :=
  encode_rs_in_bounds gf8_codec [1, 2, 3, 4, 5] 5 [0, 0] 9 (by unfold bufs_ok; decide)
    (by decide)

/-- C7: when the range check fails (`pad < 0` or `pad ≥ nn`) the encoder returns
`-ERANGE` with the data and the parity buffer element for element as they were;
and no run that returns `-ERANGE` has changed either buffer. -/
theorem encode_rs_range_error_no_mutation (rs : rs_codec) (data : List Nat) (len : Int)
    (par : List Nat) (invmsk : Nat) :
    ((rs.nn - rs.nroots - len < 0 ∨ rs.nn - rs.nroots - len ≥ rs.nn) →
      encode_rs rs data len par invmsk = some ⟨-ERANGE, data, par⟩)
    ∧ (∀ r, encode_rs rs data len par invmsk = some r → r.ret = -ERANGE →
        r.data = data ∧ r.par = par) := by
  refine ⟨encode_rs_of_range_error rs data len par invmsk, fun r hr hret => ?_⟩
  by_cases h : rs.nn - rs.nroots - len < 0 ∨ rs.nn - rs.nroots - len ≥ rs.nn
  · rw [encode_rs_of_range_error rs data len par invmsk h] at hr
    simp only [Option.some.injEq] at hr
    rw [← hr]
    exact ⟨rfl, rfl⟩
  · rw [encode_rs_of_in_range rs data len par invmsk h] at hr
    cases hl : encode_rs_loop rs data len invmsk par with
    | none => rw [hl] at hr; simp at hr
    | some p =>
      rw [hl] at hr
      simp only [Option.map_some', Option.some.injEq] at hr
      rw [← hr] at hret
      exact absurd (show (0 : Int) = -ERANGE from hret) (by decide)

/-- Witness of C7: six data symbols with two parity symbols exceed the block of
seven symbols; the seeded parity `[3, 5]` comes back untouched. -/
theorem encode_rs_range_error_no_mutation_witness :
    encode_rs gf8_codec [1, 2, 3, 4, 5, 6] 6 [3, 5] 0
      = some ⟨-ERANGE, [1, 2, 3, 4, 5, 6], [3, 5]⟩ :=
  (encode_rs_range_error_no_mutation gf8_codec [1, 2, 3, 4, 5, 6] 6 [3, 5] 0).1 (by decide)

/-! ## The invert mask -/

theorem foldlM_congr {α β : Type} (f g : β → α → Option β) (l : List α) :
    ∀ (b : β), (∀ x ∈ l, ∀ s, f s x = g s x) → l.foldlM f b = l.foldlM g b := by
  induction l with
  | nil => intro b _; rfl
  | cons a t ih =>
    intro b h
    simp only [List.foldlM]
    rw [h a (List.mem_cons_self _ _) b]
    cases hg : g b a with
    | none => rfl
    | some s => exact ih s (fun x hx s => h x (List.mem_cons_of_mem _ hx) s)

/-- The index used on `index_of` depends on the data symbol and the invert mask
only through `(d ^ invmsk) & nn`. -/
theorem fb_index_masked (rs : rs_codec) (d invmsk p0 : Nat) (hnn : rs.nn = 2 ^ rs.mm - 1) :
    fb_index rs d invmsk p0 = fb_index rs ((d ^^^ invmsk) &&& rs.nn.toNat) 0 p0 := by
  have hN := nn_cast rs hnn
  unfold fb_index
  rw [u16_nat, u16_nat, hN, u16_nat, Int.toNat_ofNat]
  congr 1
  apply Nat.eq_of_testBit_eq
  intro i
  have h16 : (65536 : Nat) = 2 ^ 16 := by norm_num
  simp only [h16, Nat.testBit_and, Nat.testBit_xor, Nat.testBit_mod_two_pow, Nat.zero_testBit]
  by_cases hi : i < 16 <;> simp [hi]

theorem encode_rs_step_masked (rs : rs_codec) (data1 data2 : List Nat) (inv1 inv2 : Nat)
    (par : List Nat) (i : Nat) (hnn : rs.nn = 2 ^ rs.mm - 1)
    (h : (data1[i]?).map (fun d => (d ^^^ inv1) &&& rs.nn.toNat)
       = (data2[i]?).map (fun d => (d ^^^ inv2) &&& rs.nn.toNat)) :
    encode_rs_step rs data1 inv1 par i = encode_rs_step rs data2 inv2 par i := by
  unfold encode_rs_step
  rw [rd_nat, rd_nat]
  cases h1 : data1[i]? with
  | none =>
    cases h2 : data2[i]? with
    | none => rfl
    | some d2 => rw [h1, h2] at h; simp at h
  | some d1 =>
    cases h2 : data2[i]? with
    | none => rw [h1, h2] at h; simp at h
    | some d2 =>
      rw [h1, h2] at h
      simp only [Option.map_some', Option.some.injEq] at h
      simp only [Option.bind_eq_bind, Option.some_bind]
      cases hp : rd par 0 with
      | none => rfl
      | some p0 =>
        simp only [Option.some_bind]
        rw [fb_index_masked rs d1 inv1 p0 hnn, fb_index_masked rs d2 inv2 p0 hnn, h]

theorem encode_rs_masked (rs : rs_codec) (data1 data2 : List Nat) (inv1 inv2 : Nat)
    (len : Int) (par : List Nat) (hnn : rs.nn = 2 ^ rs.mm - 1)
    (h : ∀ i : Nat, (i : Int) < len →
      (data1[i]?).map (fun d => (d ^^^ inv1) &&& rs.nn.toNat)
        = (data2[i]?).map (fun d => (d ^^^ inv2) &&& rs.nn.toNat)) :
    (encode_rs rs data1 len par inv1).map (fun r => (r.ret, r.par))
      = (encode_rs rs data2 len par inv2).map (fun r => (r.ret, r.par)) := by
  have hloop : encode_rs_loop rs data1 len inv1 par = encode_rs_loop rs data2 len inv2 par := by
    unfold encode_rs_loop
    apply foldlM_congr
    intro x hx s
    rw [List.mem_range] at hx
    exact encode_rs_step_masked rs data1 data2 inv1 inv2 s x hnn (h x (by omega))
  unfold encode_rs
  by_cases hr : rs.nn - rs.nroots - len < 0 ∨ rs.nn - rs.nroots - len ≥ rs.nn
  · simp only [if_pos hr, Option.map_some']
  · simp only [if_neg hr, hloop, Option.map_map]
    rfl

theorem and_mask_idem (a N : Nat) : ((a &&& N) ^^^ 0) &&& N = a &&& N := by
  rw [Nat.xor_zero, Nat.and_assoc, Nat.and_self]

/-- C8: with `nn = 2^mm - 1`, encoding `data` under `invmsk` gives the same
return value and the same final parity as encoding, under the mask 0, any
`data'` with `data'[i] = (data[i] XOR invmsk) AND nn` for `i < len`; and two
inputs whose symbols agree after `(· XOR invmsk) AND nn` give the same return
value and parity, so bits above bit `mm - 1` have no influence. -/
theorem encode_rs_invmsk (rs : rs_codec) (data data' : List Nat) (len : Int)
    (par : List Nat) (invmsk : Nat) (hnn : rs.nn = 2 ^ rs.mm - 1)
    (hd : ∀ i : Nat, (i : Int) < len →
      data'[i]? = (data[i]?).map (fun d => (d ^^^ invmsk) &&& rs.nn.toNat)) :
    (encode_rs rs data len par invmsk).map (fun r => (r.ret, r.par))
      = (encode_rs rs data' len par 0).map (fun r => (r.ret, r.par))
    ∧ ∀ (data2 : List Nat) (inv2 : Nat),
        (∀ i : Nat, (i : Int) < len →
          (data[i]?).map (fun d => (d ^^^ invmsk) &&& rs.nn.toNat)
            = (data2[i]?).map (fun d => (d ^^^ inv2) &&& rs.nn.toNat)) →
        (encode_rs rs data len par invmsk).map (fun r => (r.ret, r.par))
          = (encode_rs rs data2 len par inv2).map (fun r => (r.ret, r.par)) := by
  refine ⟨?_, fun data2 inv2 h => encode_rs_masked rs data data2 invmsk inv2 len par hnn h⟩
  apply encode_rs_masked rs data data' invmsk 0 len par hnn
  intro i hi
  rw [hd i hi, Option.map_map]
  congr 1
  funext d
  exact (and_mask_idem _ _).symm

/-- Witness of C8 on the GF(8) codec: the mask `0xFFFF` on bytes against the
complemented three-bit symbols under mask 0. -/
theorem encode_rs_invmsk_witness :
    (encode_rs gf8_codec [1, 2, 3, 4, 5] 5 [0, 0] 65535).map (fun r => (r.ret, r.par))
      = (encode_rs gf8_codec [6, 5, 4, 3, 2] 5 [0, 0] 0).map (fun r => (r.ret, r.par)) :=
  (encode_rs_invmsk gf8_codec [1, 2, 3, 4, 5] [6, 5, 4, 3, 2] 5 [0, 0] 65535 (by decide)
    (by
      intro i hi
      have : i < 5 := by omega
      interval_cases i <;> decide)).1

/-! ## The two branches of the loop body -/

theorem rd_mem (a : List Nat) (i : Int) (v : Nat) (h : rd a i = some v) : v ∈ a := by
  unfold rd at h
  split_ifs at h
  exact List.getElem?_mem h

theorem getD_mem_of_lt (l : List Nat) (k : Nat) (h : k < l.length) : l.getD k 0 ∈ l := by
  rw [List.getD_eq_getElem _ _ h]
  exact List.getElem_mem _

/-- C9: with `nn = 2^mm - 1` and `index_of`, `genpoly` entries at most `nn`, a
feedback `fb ≠ nn` makes every argument `fb + genpoly[k]` of `rs_modnn_fast` lie
in `[0, 2*nn)`, so the fast modulo is the true remainder, in `[0, nn)`; the step
succeeds and sets `par'[j-1] = par[j] XOR alpha_to[(fb + genpoly[nroots-j]) mod nn]`
for `1 ≤ j < nroots` and `par'[nroots-1] = alpha_to[(fb + genpoly[0]) mod nn]`. -/
theorem encode_rs_step_fast_modulo (rs : rs_codec) (data : List Nat) (invmsk : Nat)
    (par : List Nat) (i n d fb : Nat) (hnn : rs.nn = 2 ^ rs.mm - 1)
    (hi : ∀ x ∈ rs.index_of, (x : Int) ≤ rs.nn)
    (hg : ∀ x ∈ rs.genpoly, (x : Int) ≤ rs.nn)
    (hn : rs.nroots = (n : Int)) (hn1 : 1 ≤ n) (hlen : par.length = n)
    (hglen : n ≤ rs.genpoly.length) (halen : rs.nn ≤ (rs.alpha_to.length : Int))
    (hd : rd data (i : Int) = some d)
    (hfb : rd rs.index_of (fb_index rs d invmsk (par.getD 0 0) : Nat) = some fb)
    (hne : (fb : Int) ≠ rs.nn) :
    (∀ g ∈ rs.genpoly, 0 ≤ (fb : Int) + (g : Int) ∧ (fb : Int) + (g : Int) < 2 * rs.nn
        ∧ rs_modnn_fast rs ((fb : Int) + (g : Int)) = ((fb : Int) + (g : Int)) % rs.nn
        ∧ 0 ≤ rs_modnn_fast rs ((fb : Int) + (g : Int))
        ∧ rs_modnn_fast rs ((fb : Int) + (g : Int)) < rs.nn)
    ∧ ∃ par', encode_rs_step rs data invmsk par i = some par' ∧ par'.length = n
        ∧ (∀ j, 1 ≤ j → j < n → par'.getD (j - 1) 0 = par.getD j 0 ^^^
            rs.alpha_to.getD
              (((fb : Int) + (rs.genpoly.getD (n - j) 0 : Int)) % rs.nn).toNat 0)
        ∧ par'.getD (n - 1) 0 = rs.alpha_to.getD
              (((fb : Int) + (rs.genpoly.getD 0 0 : Int)) % rs.nn).toNat 0 := by
  have hN := nn_cast rs hnn
  have hfble : (fb : Int) ≤ rs.nn := hi fb (rd_mem _ _ _ hfb)
  have hfblt : fb < 2 ^ rs.mm - 1 := by
    rw [hN] at hfble hne
    have : fb ≠ 2 ^ rs.mm - 1 := fun h => hne (by rw [h])
    omega
  have hpos : 0 < rs.nn := by omega
  constructor
  · intro g hgm
    have hgle := hg g hgm
    have hfast := rs_modnn_fast_mod rs ((fb : Int) + (g : Int)) (by omega) (by omega)
    refine ⟨by omega, by omega, hfast, ?_, ?_⟩
    · rw [hfast]; exact Int.emod_nonneg _ (by omega)
    · rw [hfast]; exact Int.emod_lt_of_pos _ hpos
  · have hidx : ∀ k, (((fb : Int) + (rs.genpoly.getD k 0 : Int)) % rs.nn).toNat
        = (fb + rs.genpoly.getD k 0) % (2 ^ rs.mm - 1) := by
      intro k
      rw [hN]
      norm_cast
    rw [encode_rs_step_feedback rs data invmsk par i n d fb
      (fun k => rs.alpha_to.getD ((fb + rs.genpoly.getD k 0) % (2 ^ rs.mm - 1)) 0)
      hn hn1 hlen hd hfb hne
      (fun k hk => gen_term_ok rs fb k hnn hfblt (by omega)
        (by
          have := hg _ (getD_mem_of_lt rs.genpoly k (by omega))
          rw [hN] at this
          exact_mod_cast this)
        (by rw [hN] at halen; exact_mod_cast halen))]
    refine ⟨_, rfl, shifted_length _ _ _, fun j hj1 hjn => ?_, ?_⟩
    · have e1 : j - 1 + 1 = j := by omega
      have e2 : n - 1 - (j - 1) = n - j := by omega
      rw [shifted_getD _ _ _ _ (by omega), e1, e2, hidx]
    · have e1 : n - 1 + 1 = n := by omega
      have e2 : n - 1 - (n - 1) = 0 := by omega
      rw [shifted_getD _ _ _ _ (by omega), e1, e2, hidx,
        List.getD_eq_default _ _ (by omega), Nat.zero_xor]

/-- Witness of C9: the first step of the GF(8) encoder on the symbol 1, whose
feedback is `index_of[1] = 0`. -/
theorem encode_rs_step_fast_modulo_witness :
    ∃ par', encode_rs_step gf8_codec [1, 2, 3, 4, 5] 0 [0, 0] 0 = some par' ∧ par'.length = 2
      ∧ (∀ j, 1 ≤ j → j < 2 → par'.getD (j - 1) 0 = ([0, 0] : List Nat).getD j 0 ^^^
          gf8_codec.alpha_to.getD
            ((((0 : Nat) : Int) + (gf8_codec.genpoly.getD (2 - j) 0 : Int))
              % gf8_codec.nn).toNat 0)
      ∧ par'.getD (2 - 1) 0 = gf8_codec.alpha_to.getD
            ((((0 : Nat) : Int) + (gf8_codec.genpoly.getD 0 0 : Int)) % gf8_codec.nn).toNat 0 :=
  (encode_rs_step_fast_modulo gf8_codec [1, 2, 3, 4, 5] 0 [0, 0] 0 2 1 0 (by decide)
    (by decide) (by decide) (by decide) (by decide) (by decide) (by decide) (by decide)
    (by decide) (by decide) (by decide)).2

theorem masked_symbol_eq (rs : rs_codec) (d invmsk : Nat) (hnn : rs.nn = 2 ^ rs.mm - 1)
    (hd : d < 65536) (hinv : invmsk < 65536) :
    (u16 (d : Int) ^^^ invmsk) &&& u16 rs.nn = (d ^^^ invmsk) &&& rs.nn.toNat := by
  have hN := nn_cast rs hnn
  rw [u16_nat, hN, u16_nat, Int.toNat_ofNat, Nat.mod_eq_of_lt hd]
  apply Nat.eq_of_testBit_eq
  intro i
  have h16 : (65536 : Nat) = 2 ^ 16 := by norm_num
  simp only [h16, Nat.testBit_and, Nat.testBit_xor, Nat.testBit_mod_two_pow]
  by_cases hi : i < 16
  · simp [hi]
  · have hp : 2 ^ 16 ≤ 2 ^ i := Nat.pow_le_pow_right (by decide) (by omega)
    have h1 : d.testBit i = false := Nat.testBit_lt_two_pow (by omega)
    have h2 : invmsk.testBit i = false := Nat.testBit_lt_two_pow (by omega)
    simp [hi, h1, h2]

/-- C10: with `nroots ≥ 1`, `index_of[v] = nn` exactly for `v = 0` among
`0 ≤ v ≤ nn`, and `par[0] ≤ nn`: the feedback of a processed symbol `d` is the
sentinel `nn` exactly when `(d XOR invmsk) AND nn = par[0]`, and then the step
yields `par'[k] = par[k+1]` for `k < nroots - 1` and `par'[nroots-1] = 0`. -/
theorem encode_rs_step_zero_feedback (rs : rs_codec) (data : List Nat) (invmsk : Nat)
    (par : List Nat) (i n d : Nat) (hnn : rs.nn = 2 ^ rs.mm - 1)
    (hn : rs.nroots = (n : Int)) (hn1 : 1 ≤ n) (hlen : par.length = n)
    (hd16 : d < 65536) (hinv16 : invmsk < 65536)
    (hidx : ∀ v : Nat, (v : Int) ≤ rs.nn →
      ∃ fb, rs.index_of[v]? = some fb ∧ ((fb : Int) = rs.nn ↔ v = 0))
    (hd : rd data (i : Int) = some d) (hp0 : (par.getD 0 0 : Int) ≤ rs.nn) :
    ∃ fb, rd rs.index_of (fb_index rs d invmsk (par.getD 0 0) : Nat) = some fb
      ∧ ((fb : Int) = rs.nn ↔ (d ^^^ invmsk) &&& rs.nn.toNat = par.getD 0 0)
      ∧ ((fb : Int) = rs.nn →
          ∃ par', encode_rs_step rs data invmsk par i = some par' ∧ par'.length = n
            ∧ (∀ k, k + 1 < n → par'.getD k 0 = par.getD (k + 1) 0)
            ∧ par'.getD (n - 1) 0 = 0) := by
  have hN := nn_cast rs hnn
  have hle : fb_index rs d invmsk (par.getD 0 0) ≤ 2 ^ rs.mm - 1 :=
    fb_index_le rs d invmsk _ hnn (by rw [hN] at hp0; exact_mod_cast hp0)
  obtain ⟨fb, hfb, hiff⟩ := hidx (fb_index rs d invmsk (par.getD 0 0))
    (by rw [hN]; exact_mod_cast hle)
  have hrd : rd rs.index_of (fb_index rs d invmsk (par.getD 0 0) : Nat) = some fb := by
    rw [rd_nat]; exact hfb
  refine ⟨fb, hrd, ?_, fun hz => ?_⟩
  · rw [hiff, ← masked_symbol_eq rs d invmsk hnn hd16 hinv16]
    unfold fb_index
    exact Nat.xor_eq_zero
  · rw [encode_rs_step_zero rs data invmsk par i n d fb hn hn1 hlen hd hrd hz]
    refine ⟨_, rfl, shifted_length _ _ _, fun k hk => ?_, ?_⟩
    · rw [shifted_getD _ _ _ _ (by omega), Nat.xor_zero]
    · have e1 : n - 1 + 1 = n := by omega
      rw [shifted_getD _ _ _ _ (by omega), e1, List.getD_eq_default _ _ (by omega)]
      rfl

/-- Witness of C10 on the GF(8) codec: the symbol 1 meets `par[0] = 1`, the
feedback is the sentinel 7 and the register `[1, 3]` becomes `[3, 0]`. -/
theorem encode_rs_step_zero_feedback_witness :
    ∃ fb, rd gf8_codec.index_of (fb_index gf8_codec 1 0 (([1, 3] : List Nat).getD 0 0) : Nat)
        = some fb
      ∧ ((fb : Int) = gf8_codec.nn
          ↔ (1 ^^^ 0) &&& gf8_codec.nn.toNat = ([1, 3] : List Nat).getD 0 0)
      ∧ ((fb : Int) = gf8_codec.nn →
          ∃ par', encode_rs_step gf8_codec [1, 2, 3, 4, 5] 0 [1, 3] 0 = some par'
            ∧ par'.length = 2
            ∧ (∀ k, k + 1 < 2 → par'.getD k 0 = ([1, 3] : List Nat).getD (k + 1) 0)
            ∧ par'.getD (2 - 1) 0 = 0) :=
  encode_rs_step_zero_feedback gf8_codec [1, 2, 3, 4, 5] 0 [1, 3] 0 2 1 (by decide)
    (by decide) (by decide) (by decide) (by decide) (by decide)
    (by
      intro v hv
      change (v : Int) ≤ 7 at hv
      have hv7 : v ≤ 7 := by exact_mod_cast hv
      interval_cases v <;> exact ⟨_, rfl, by decide⟩)
    (by decide) (by decide)

open Polynomial

/-! ## Polynomial algebra of the shift register -/

/-- Appending one low-order coefficient: Horner step. -/
theorem hi_poly_succ {F : Type} [CommRing F] (d : Nat → F) (k : Nat) :
    (∑ t in Finset.range (k + 1), C (d t) * X ^ (k + 1 - 1 - t) : F[X])
      = X * (∑ t in Finset.range k, C (d t) * X ^ (k - 1 - t)) + C (d k) := by
  rw [Finset.sum_range_succ, Finset.mul_sum]
  congr 1
  · apply Finset.sum_congr rfl
    intro t ht
    rw [Finset.mem_range] at ht
    have e : k + 1 - 1 - t = (k - 1 - t) + 1 := by omega
    rw [e, pow_succ]
    ring
  · have e : k + 1 - 1 - k = 0 := by omega
    rw [e, pow_zero, mul_one]

/-- Multiplying the register polynomial by `X`: the head coefficient moves to
`X^n`, the others shift up, a zero comes in at the bottom. -/
theorem X_mul_reg {F : Type} [CommRing F] (p : Nat → F) (n : Nat) (hn : 1 ≤ n)
    (hpn : p n = 0) :
    (X * (∑ j in Finset.range n, C (p j) * X ^ (n - 1 - j)) : F[X])
      = C (p 0) * X ^ n + ∑ k in Finset.range n, C (p (k + 1)) * X ^ (n - 1 - k) := by
  obtain ⟨m, rfl⟩ : ∃ m, n = m + 1 := ⟨n - 1, by omega⟩
  rw [Finset.sum_range_succ', Finset.sum_range_succ (fun k => C (p (k + 1)) * X ^ (m + 1 - 1 - k)),
    hpn, mul_add, Finset.mul_sum]
  have e0 : m + 1 - 1 - 0 = m := by omega
  rw [e0]
  simp only [map_zero, zero_mul, add_zero]
  rw [add_comm]
  congr 1
  · rw [pow_succ]; ring
  · apply Finset.sum_congr rfl
    intro k hk
    rw [Finset.mem_range] at hk
    have e1 : m + 1 - 1 - (k + 1) = m - 1 - k := by omega
    have e2 : m + 1 - 1 - k = (m - 1 - k) + 1 := by omega
    rw [e1, e2, pow_succ]
    ring

/-- One step of the division: with feedback `f = d + p 0` in characteristic 2,
the register `p' k = p (k+1) + f * γ (n-1-k)` satisfies
`R' + f * g = X * R + d * X^n` for `g = X^n + Σ γ k X^k`. -/
theorem reg_step {F : Type} [CommRing F] (h2 : ∀ x : F, x + x = 0)
    (p p' γ : Nat → F) (f d : F) (n : Nat) (hn : 1 ≤ n) (hpn : p n = 0)
    (hf : f = d + p 0)
    (hp' : ∀ k, k < n → p' k = p (k + 1) + f * γ (n - 1 - k)) :
    (∑ j in Finset.range n, C (p' j) * X ^ (n - 1 - j) : F[X])
        + C f * (X ^ n + ∑ k in Finset.range n, C (γ k) * X ^ k)
      = X * (∑ j in Finset.range n, C (p j) * X ^ (n - 1 - j)) + C d * X ^ n := by
  have hP2 : ∀ q : F[X], q + q = 0 := by
    intro q
    have : q + q = C (1 + 1 : F) * q := by rw [map_add, map_one]; ring
    rw [this, h2 1, map_zero, zero_mul]
  have hsum : (∑ j in Finset.range n, C (p' j) * X ^ (n - 1 - j) : F[X])
      = (∑ k in Finset.range n, C (p (k + 1)) * X ^ (n - 1 - k))
        + C f * ∑ k in Finset.range n, C (γ k) * X ^ k := by
    rw [← Finset.sum_range_reflect (fun k => C (γ k) * X ^ k) n, Finset.mul_sum,
      ← Finset.sum_add_distrib]
    apply Finset.sum_congr rfl
    intro k hk
    rw [Finset.mem_range] at hk
    rw [hp' k hk, map_add, map_mul]
    ring
  rw [X_mul_reg p n hn hpn, hsum, hf, map_add]
  have := hP2 (C (d + p 0) * ∑ k in Finset.range n, C (γ k) * X ^ k)
  rw [map_add] at this
  linear_combination this

theorem reg_degree_lt {F : Type} [CommRing F] (p : Nat → F) (n : Nat) :
    (∑ j in Finset.range n, C (p j) * X ^ (n - 1 - j) : F[X]).degree < (n : WithBot ℕ) := by
  apply lt_of_le_of_lt (Polynomial.degree_sum_le _ _)
  rw [Finset.sup_lt_iff (by exact WithBot.bot_lt_coe n)]
  intro j hj
  rw [Finset.mem_range] at hj
  apply lt_of_le_of_lt (Polynomial.degree_C_mul_X_pow_le _ _)
  exact_mod_cast (by omega : n - 1 - j < n)

theorem low_degree_lt {F : Type} [CommRing F] (γ : Nat → F) (n : Nat) :
    (∑ k in Finset.range n, C (γ k) * X ^ k : F[X]).degree < (n : WithBot ℕ) := by
  apply lt_of_le_of_lt (Polynomial.degree_sum_le _ _)
  rw [Finset.sup_lt_iff (by exact WithBot.bot_lt_coe n)]
  intro j hj
  rw [Finset.mem_range] at hj
  apply lt_of_le_of_lt (Polynomial.degree_C_mul_X_pow_le _ _)
  exact_mod_cast hj

/-- Uniqueness of the remainder for the generator `g = X^n + Σ γ k X^k`. -/
theorem mod_gen_unique {F : Type} [CommRing F] (γ p : Nat → F) (n : Nat)
    (D Q : F[X])
    (h : D = Q * (X ^ n + ∑ k in Finset.range n, C (γ k) * X ^ k)
      + ∑ j in Finset.range n, C (p j) * X ^ (n - 1 - j)) :
    D %ₘ (X ^ n + ∑ k in Finset.range n, C (γ k) * X ^ k)
      = ∑ j in Finset.range n, C (p j) * X ^ (n - 1 - j) := by
  rcases subsingleton_or_nontrivial F with hs | hs
  · exact Subsingleton.elim _ _
  · have hmon : (X ^ n + ∑ k in Finset.range n, C (γ k) * X ^ k : F[X]).Monic :=
      Polynomial.monic_X_pow_add (low_degree_lt γ n)
    have hdeg : (X ^ n + ∑ k in Finset.range n, C (γ k) * X ^ k : F[X]).degree = (n : WithBot ℕ) := by
      rw [Polynomial.degree_add_eq_left_of_degree_lt, Polynomial.degree_X_pow]
      rw [Polynomial.degree_X_pow]
      exact low_degree_lt γ n
    refine (Polynomial.div_modByMonic_unique Q _ hmon ⟨?_, ?_⟩).2
    · rw [h]; ring
    · rw [hdeg]; exact reg_degree_lt p n

/-! ## The tables of a well-formed codec -/

theorem codec_wf_zero {F : Type} [CommRing F] (φ : Nat → F) (α : F) (rs : rs_codec)
    (h : codec_wf φ α rs) : φ 0 = 0 := by
  obtain ⟨hmm, hnn, hxor, _⟩ := h
  have hN := nn_cast rs hnn
  have := hxor 0 0 (by rw [hN]; omega) (by rw [hN]; omega)
  rw [Nat.xor_self] at this
  exact self_eq_add_left.mp this

theorem codec_wf_char_two {F : Type} [CommRing F] (φ : Nat → F) (α : F) (rs : rs_codec)
    (h : codec_wf φ α rs) : ∀ x : F, x + x = 0 := by
  have h0 := codec_wf_zero φ α rs h
  obtain ⟨hmm, hnn, hxor, _, halpha, _⟩ := h
  have hN := nn_cast rs hnn
  have h2 := two_le_pow rs.mm hmm
  obtain ⟨s, _, hs, hφ, _⟩ := halpha 0 (by rw [hN]; omega)
  have := hxor s s hs hs
  rw [Nat.xor_self, h0, hφ, pow_zero] at this
  intro x
  have e : x + x = x * (1 + 1) := by ring
  rw [e, ← this, mul_zero]

/-- Every non-zero symbol has a logarithm below `nn` in `index_of`, and
`alpha_to` takes it back. -/
theorem codec_wf_log {F : Type} [CommRing F] (φ : Nat → F) (α : F) (rs : rs_codec)
    (h : codec_wf φ α rs) (s : Nat) (hs0 : 0 < s) (hs : s ≤ 2 ^ rs.mm - 1) :
    ∃ i, i < 2 ^ rs.mm - 1 ∧ rs.index_of[s]? = some i ∧ rs.alpha_to[i]? = some s := by
  obtain ⟨hmm, hnn, _, _, halpha, hzero, _⟩ := h
  have hN := nn_cast rs hnn
  rw [hN] at halpha hzero
  rw [Int.toNat_ofNat] at hzero
  have hal : ∀ i : Nat, i < 2 ^ rs.mm - 1 →
      ∃ s, rs.alpha_to[i]? = some s ∧ s ≤ 2 ^ rs.mm - 1 ∧ rs.index_of[s]? = some i := by
    intro i hi
    obtain ⟨s, h1, h2, _, h4⟩ := halpha i (by exact_mod_cast hi)
    exact ⟨s, h1, by exact_mod_cast h2, h4⟩
  choose! A hA using hal
  have hApos : ∀ i, i < 2 ^ rs.mm - 1 → 1 ≤ A i := by
    intro i hi
    by_contra hc
    have hz : A i = 0 := by omega
    have := (hA i hi).2.2
    rw [hz, hzero] at this
    simp only [Option.some.injEq] at this
    omega
  let f : Fin (2 ^ rs.mm - 1) → Fin (2 ^ rs.mm - 1) := fun i =>
    ⟨A i.1 - 1, by have := (hA i.1 i.2).2.1; have := hApos i.1 i.2; omega⟩
  have hinj : Function.Injective f := by
    intro i j hij
    have hv : A i.1 - 1 = A j.1 - 1 := congrArg Fin.val hij
    have hi1 := hApos i.1 i.2
    have hj1 := hApos j.1 j.2
    have hAeq : A i.1 = A j.1 := by omega
    have h1 := (hA i.1 i.2).2.2
    have h2 := (hA j.1 j.2).2.2
    rw [hAeq, h2] at h1
    simp only [Option.some.injEq] at h1
    exact Fin.ext h1.symm
  have hsurj := Finite.injective_iff_surjective.mp hinj
  obtain ⟨i, hi⟩ := hsurj ⟨s - 1, by omega⟩
  have hv : A i.1 - 1 = s - 1 := congrArg Fin.val hi
  have hi1 := hApos i.1 i.2
  have hAs : A i.1 = s := by omega
  refine ⟨i.1, i.2, ?_, ?_⟩
  · rw [← hAs]; exact (hA i.1 i.2).2.2
  · rw [← hAs]; exact (hA i.1 i.2).1

theorem pow_mod_of_pow_eq_one {F : Type} [CommRing F] (α : F) (N x : Nat) (h : α ^ N = 1) :
    α ^ (x % N) = α ^ x := by
  conv_rhs => rw [← Nat.div_add_mod x N]
  rw [pow_add, pow_mul, h, one_pow, one_mul]

theorem fb_index_plain (rs : rs_codec) (d p0 : Nat) (hnn : rs.nn = 2 ^ rs.mm - 1)
    (hd : d ≤ 2 ^ rs.mm - 1) (hd16 : d < 65536) : fb_index rs d 0 p0 = d ^^^ p0 := by
  have hN := nn_cast rs hnn
  unfold fb_index
  rw [masked_symbol_eq rs d 0 hnn hd16 (by norm_num), Nat.xor_zero, hN, Int.toNat_ofNat,
    Nat.and_pow_two_sub_one_eq_mod, Nat.mod_eq_of_lt ((le_mask_iff _ _).mp hd)]

/-- One step of the encoder on a well-formed codec, read in the ring: the new
register is `p' k = p (k+1) + f * alpha^genpoly[n-1-k]` with the feedback
`f = d + p 0`. -/
theorem encode_rs_step_field {F : Type} [CommRing F] (φ : Nat → F) (α : F) (rs : rs_codec)
    (h : codec_wf φ α rs) (data par : List Nat) (i n : Nat)
    (hn : rs.nroots = (n : Int)) (hn1 : 1 ≤ n) (hlen : par.length = n)
    (hp : ∀ x ∈ par, x ≤ 2 ^ rs.mm - 1) (hi : i < data.length)
    (hd : data.getD i 0 ≤ 2 ^ rs.mm - 1) (hd16 : data.getD i 0 < 65536) :
    ∃ par', encode_rs_step rs data 0 par i = some par' ∧ par'.length = n
      ∧ (∀ x ∈ par', x ≤ 2 ^ rs.mm - 1)
      ∧ ∀ k, k < n → φ (par'.getD k 0) = φ (par.getD (k + 1) 0)
          + (φ (data.getD i 0) + φ (par.getD 0 0)) * α ^ (rs.genpoly.getD (n - 1 - k) 0) := by
  have h0 := codec_wf_zero φ α rs h
  have hlog := codec_wf_log φ α rs h
  obtain ⟨hmm, hnn, hxor, hα, halpha, hzero, hgen⟩ := h
  have hN := nn_cast rs hnn
  rw [hN] at hxor hα halpha hzero hgen
  rw [Int.toNat_ofNat] at hα hzero
  have hxor' : ∀ a b : Nat, a ≤ 2 ^ rs.mm - 1 → b ≤ 2 ^ rs.mm - 1 →
      φ (a ^^^ b) = φ a + φ b :=
    fun a b ha hb => hxor a b (by exact_mod_cast ha) (by exact_mod_cast hb)
  have hrd := rd_some_of_lt data i hi
  have hp0 : par.getD 0 0 ≤ 2 ^ rs.mm - 1 := getD_le_of_all par _ _ hp
  have hidx := fb_index_plain rs (data.getD i 0) (par.getD 0 0) hnn hd hd16
  have hsle : data.getD i 0 ^^^ par.getD 0 0 ≤ 2 ^ rs.mm - 1 := xor_le_mask _ _ _ hd hp0
  have hf : φ (data.getD i 0 ^^^ par.getD 0 0) = φ (data.getD i 0) + φ (par.getD 0 0) :=
    hxor' _ _ hd hp0
  by_cases hs : data.getD i 0 ^^^ par.getD 0 0 = 0
  · have hfb : rd rs.index_of (fb_index rs (data.getD i 0) 0 (par.getD 0 0) : Nat)
        = some (2 ^ rs.mm - 1) := by
      rw [rd_nat, hidx, hs]; exact hzero
    rw [encode_rs_step_zero rs data 0 par i n _ _ hn hn1 hlen hrd hfb hN.symm]
    refine ⟨_, rfl, shifted_length _ _ _,
      shifted_le _ _ _ _ (fun _ => Nat.zero_le _) hp, fun k hk => ?_⟩
    rw [shifted_getD _ _ _ _ hk, Nat.xor_zero, ← hf, hs, h0, zero_mul, add_zero]
  · obtain ⟨l, hl, hil, hal⟩ := hlog _ (Nat.pos_of_ne_zero hs) hsle
    have hfb : rd rs.index_of (fb_index rs (data.getD i 0) 0 (par.getD 0 0) : Nat)
        = some l := by
      rw [rd_nat, hidx]; exact hil
    have hne : (l : Int) ≠ rs.nn := by rw [hN]; omega
    have halen : 2 ^ rs.mm - 1 ≤ rs.alpha_to.length := by
      by_contra hc
      obtain ⟨s, hs1, _⟩ := halpha (2 ^ rs.mm - 1 - 1) (by omega)
      have := List.getElem?_eq_none (l := rs.alpha_to) (n := 2 ^ rs.mm - 1 - 1) (by omega)
      rw [this] at hs1
      exact Option.noConfusion hs1
    have hA : ∀ j, j < 2 ^ rs.mm - 1 →
        rs.alpha_to.getD j 0 ≤ 2 ^ rs.mm - 1 ∧ φ (rs.alpha_to.getD j 0) = α ^ j := by
      intro j hj
      obtain ⟨s, hs1, hs2, hs3, _⟩ := halpha j (by exact_mod_cast hj)
      rw [List.getD_eq_getElem?_getD, hs1]
      exact ⟨by exact_mod_cast hs2, hs3⟩
    have hG : ∀ k, k < n → k < rs.genpoly.length ∧ rs.genpoly.getD k 0 < 2 ^ rs.mm - 1 := by
      intro k hk
      obtain ⟨g, hg1, hg2⟩ := hgen k (by rw [hn]; exact_mod_cast hk)
      have hkl : k < rs.genpoly.length := by
        by_contra hc
        rw [List.getElem?_eq_none (by omega)] at hg1
        exact Option.noConfusion hg1
      rw [List.getD_eq_getElem?_getD, hg1]
      exact ⟨hkl, by exact_mod_cast hg2⟩
    rw [encode_rs_step_feedback rs data 0 par i n _ l
      (fun k => rs.alpha_to.getD ((l + rs.genpoly.getD k 0) % (2 ^ rs.mm - 1)) 0)
      hn hn1 hlen hrd hfb hne
      (fun k hk => gen_term_ok rs l k hnn hl (hG k hk).1 (le_of_lt (hG k hk).2) halen)]
    have hmodlt : ∀ x, x % (2 ^ rs.mm - 1) < 2 ^ rs.mm - 1 := fun x => Nat.mod_lt _ (by omega)
    refine ⟨_, rfl, shifted_length _ _ _,
      shifted_le _ _ _ _ (fun _ => (hA _ (hmodlt _)).1) hp, fun k hk => ?_⟩
    have hsl : φ (data.getD i 0 ^^^ par.getD 0 0) = α ^ l := by
      have := (hA l hl).2
      rw [List.getD_eq_getElem?_getD, hal] at this
      exact this
    rw [shifted_getD _ _ _ _ hk,
      hxor' _ _ (getD_le_of_all par _ _ hp) (hA _ (hmodlt _)).1,
      (hA _ (hmodlt _)).2, pow_mod_of_pow_eq_one α _ _ hα, pow_add, ← hsl, hf]

/-! ## The encoder computes the remainder -/

/-- The block polynomial of `data` followed by `par` splits into the data
polynomial shifted by `n` places plus the parity polynomial. -/
theorem block_poly_split {F : Type} [CommRing F] (φ : Nat → F) (data par : List Nat)
    (len n : Nat) (hd : data.length = len) :
    (∑ t in Finset.range (len + n),
        C (φ ((data ++ par).getD t 0)) * X ^ (len + n - 1 - t) : F[X])
      = (∑ i in Finset.range len, C (φ (data.getD i 0)) * X ^ (len - 1 - i)) * X ^ n
        + ∑ j in Finset.range n, C (φ (par.getD j 0)) * X ^ (n - 1 - j) := by
  rw [Finset.sum_range_add, Finset.sum_mul]
  congr 1
  · apply Finset.sum_congr rfl
    intro t ht
    rw [Finset.mem_range] at ht
    have e : len + n - 1 - t = (len - 1 - t) + n := by omega
    rw [List.getD_append _ _ _ _ (by omega), e, pow_add]
    ring
  · apply Finset.sum_congr rfl
    intro j hj
    rw [Finset.mem_range] at hj
    have e : len + n - 1 - (len + j) = n - 1 - j := by omega
    rw [List.getD_append_right _ _ _ _ (by omega), e, hd, Nat.add_sub_cancel_left]

/-- The loop invariant of the encoder on a well-formed codec: after `len`
symbols the register holds a remainder of the shifted data polynomial. -/
theorem encode_rs_loop_field {F : Type} [CommRing F] (φ : Nat → F) (α : F) (rs : rs_codec)
    (h : codec_wf φ α rs) (data : List Nat) (len n : Nat)
    (hn : rs.nroots = (n : Int)) (hn1 : 1 ≤ n) (hdlen : len ≤ data.length)
    (hsym : ∀ d ∈ data, (d : Int) ≤ rs.nn ∧ d < 65536) :
    ∃ par, encode_rs_loop rs data (len : Int) 0 (List.replicate n 0) = some par
      ∧ par.length = n
      ∧ ∃ Q : F[X],
          (∑ i in Finset.range len, C (φ (data.getD i 0)) * X ^ (len - 1 - i)) * X ^ n
            = Q * (X ^ n + ∑ k in Finset.range n, C (α ^ rs.genpoly.getD k 0) * X ^ k)
              + ∑ j in Finset.range n, C (φ (par.getD j 0)) * X ^ (n - 1 - j) := by
  have h0 := codec_wf_zero φ α rs h
  have h2 := codec_wf_char_two φ α rs h
  have hN := nn_cast rs h.2.1
  unfold encode_rs_loop
  rw [Int.toNat_ofNat]
  obtain ⟨p, hp, hI⟩ := foldlM_inv (encode_rs_step rs data 0) (List.range len)
    (fun k p => k ≤ len → (p.length = n ∧ (∀ x ∈ p, x ≤ 2 ^ rs.mm - 1) ∧ ∃ Q : F[X],
      (∑ i in Finset.range k, C (φ (data.getD i 0)) * X ^ (k - 1 - i)) * X ^ n
        = Q * (X ^ n + ∑ k in Finset.range n, C (α ^ rs.genpoly.getD k 0) * X ^ k)
          + ∑ j in Finset.range n, C (φ (p.getD j 0)) * X ^ (n - 1 - j)))
    (List.replicate n 0)
    (by
      intro _
      refine ⟨List.length_replicate _ _, fun x hx => ?_, 0, ?_⟩
      · rw [List.eq_of_mem_replicate hx]; exact Nat.zero_le _
      · rw [Finset.sum_range_zero, zero_mul, zero_mul, zero_add]
        symm
        apply Finset.sum_eq_zero
        intro j _
        have : (List.replicate n 0).getD j 0 = 0 := by
          rw [List.getD_eq_getElem?_getD]
          by_cases hj : j < n
          · rw [List.getElem?_eq_getElem (by rw [List.length_replicate]; exact hj)]
            simp
          · rw [List.getElem?_eq_none (by rw [List.length_replicate]; omega)]
            rfl
        rw [this, h0, map_zero, zero_mul])
    (by
      intro k hk s hs
      rw [List.length_range] at hk
      obtain ⟨hsl, hsp, Q, hQ⟩ := hs (by omega)
      have hget : (List.range len).get ⟨k, by rw [List.length_range]; exact hk⟩ = k := by
        simp
      rw [hget]
      have hdk := hsym _ (getD_mem_of_lt data k (by omega))
      rw [hN] at hdk
      obtain ⟨par', e, l, b, hφ⟩ := encode_rs_step_field φ α rs h data s k n hn hn1 hsl hsp
        (by omega) (by exact_mod_cast hdk.1) hdk.2
      refine ⟨par', e, fun _ => ⟨l, b, X * Q + C (φ (data.getD k 0) + φ (s.getD 0 0)), ?_⟩⟩
      have hstep := reg_step h2 (fun j => φ (s.getD j 0)) (fun j => φ (par'.getD j 0))
        (fun k => α ^ rs.genpoly.getD k 0) (φ (data.getD k 0) + φ (s.getD 0 0))
        (φ (data.getD k 0)) n hn1
        (by
          show φ (s.getD n 0) = 0
          rw [List.getD_eq_default _ _ (by omega), h0])
        rfl hφ
      rw [hi_poly_succ (fun t => φ (data.getD t 0)) k]
      linear_combination X * hQ - hstep)
  rw [List.length_range] at hI
  obtain ⟨hl, _, Q, hQ⟩ := hI (le_refl _)
  exact ⟨p, hp, hl, Q, hQ⟩

/-- C1: on a well-formed codec, for `nroots ≥ 1`, `len + nroots ≤ nn`, data
symbols at most `nn`, `invmsk = 0` and an all-zero parity buffer, the encoder
returns 0 and the parity polynomial `Σ par[j] x^(nroots-1-j)` is the remainder of
`(Σ data[i] x^(len-1-i)) * x^nroots` modulo
`g(x) = x^nroots + Σ alpha^genpoly[k] x^k`; equivalently `g` divides the
polynomial of the block `data` followed by `par`. -/
theorem encode_rs_remainder {F : Type} [CommRing F] (φ : Nat → F) (α : F) (rs : rs_codec)
    (data : List Nat) (len n : Nat) (h : codec_wf φ α rs)
    (hn : rs.nroots = (n : Int)) (hn1 : 1 ≤ n) (hblock : ((len + n : Nat) : Int) ≤ rs.nn)
    (hdlen : data.length = len)
    (hsym : ∀ d ∈ data, (d : Int) ≤ rs.nn ∧ d < 65536) :
    ∃ par, encode_rs rs data (len : Int) (List.replicate n 0) 0 = some ⟨0, data, par⟩
      ∧ par.length = n
      ∧ (∑ j in Finset.range n, C (φ (par.getD j 0)) * X ^ (n - 1 - j) : F[X])
          = ((∑ i in Finset.range len, C (φ (data.getD i 0)) * X ^ (len - 1 - i)) * X ^ n)
              %ₘ (X ^ n + ∑ k in Finset.range n, C (α ^ rs.genpoly.getD k 0) * X ^ k)
      ∧ (X ^ n + ∑ k in Finset.range n, C (α ^ rs.genpoly.getD k 0) * X ^ k : F[X])
          ∣ ∑ t in Finset.range (len + n),
              C (φ ((data ++ par).getD t 0)) * X ^ (len + n - 1 - t) := by
  have h2 := codec_wf_char_two φ α rs h
  obtain ⟨par, hp, hl, Q, hQ⟩ :=
    encode_rs_loop_field φ α rs h data len n hn hn1 (by omega) hsym
  have hr : ¬ (rs.nn - rs.nroots - (len : Int) < 0 ∨ rs.nn - rs.nroots - (len : Int) ≥ rs.nn) := by
    push_cast at hblock
    omega
  refine ⟨par, ?_, hl, ?_, ?_⟩
  · rw [encode_rs_of_in_range rs data len _ 0 hr, hp]
    rfl
  · exact (mod_gen_unique (fun k => α ^ rs.genpoly.getD k 0) (fun j => φ (par.getD j 0)) n
      _ Q hQ).symm
  · rw [block_poly_split φ data par len n hdlen, hQ]
    refine ⟨Q, ?_⟩
    have hP2 : ∀ q : F[X], q + q = 0 := by
      intro q
      have : q + q = C (1 + 1 : F) * q := by rw [map_add, map_one]; ring
      rw [this, h2 1, map_zero, zero_mul]
    linear_combination hP2 (∑ j in Finset.range n, C (φ (par.getD j 0)) * X ^ (n - 1 - j))

/-- The GF(4) codec is well formed over `GF(2)[x]/(x^2 + x + 1)`, the symbol
with bits `b1 b0` standing for `b1 * root + b0`. -/
theorem gf4_codec_wf :
    codec_wf (F := AdjoinRoot (X ^ 2 + X + 1 : (ZMod 2)[X]))
      (fun s => (if s.testBit 0 then 1 else 0)
        + (if s.testBit 1 then AdjoinRoot.root (X ^ 2 + X + 1 : (ZMod 2)[X]) else 0))
      (AdjoinRoot.root (X ^ 2 + X + 1 : (ZMod 2)[X])) gf4_codec := by
  have hroot : (AdjoinRoot.root (X ^ 2 + X + 1 : (ZMod 2)[X])) ^ 2
      + AdjoinRoot.root (X ^ 2 + X + 1 : (ZMod 2)[X]) + 1 = 0 := by
    have := AdjoinRoot.eval₂_root (X ^ 2 + X + 1 : (ZMod 2)[X])
    simpa [Polynomial.eval₂_add, Polynomial.eval₂_pow] using this
  have htwo : (1 + 1 : AdjoinRoot (X ^ 2 + X + 1 : (ZMod 2)[X])) = 0 := by
    have : (AdjoinRoot.of (X ^ 2 + X + 1 : (ZMod 2)[X])) (1 + 1) = 0 := by
      rw [show (1 + 1 : ZMod 2) = 0 from by decide, map_zero]
    simpa using this
  refine ⟨by decide, by decide, ?_, ?_, ?_, by decide, ?_⟩
  · intro a b _ _
    have hb : ∀ (x y : Bool) (c : AdjoinRoot (X ^ 2 + X + 1 : (ZMod 2)[X])),
        (if (x ^^ y) = true then c else 0) = (if x = true then c else 0)
          + (if y = true then c else 0) := by
      intro x y c
      have hc : c + c = 0 := by
        have e : c + c = c * (1 + 1) := by ring
        rw [e, htwo, mul_zero]
      cases x <;> cases y <;> simp [hc]
    simp only [Nat.testBit_xor, hb]
    ring
  · show (AdjoinRoot.root (X ^ 2 + X + 1 : (ZMod 2)[X])) ^ 3 = 1
    linear_combination (AdjoinRoot.root (X ^ 2 + X + 1 : (ZMod 2)[X]) - 1) * hroot
  · intro i hi
    change (i : Int) < 3 at hi
    have hi3 : i < 3 := by exact_mod_cast hi
    interval_cases i
    · exact ⟨1, rfl, by decide, by simp [Nat.testBit], rfl⟩
    · exact ⟨2, rfl, by decide, by simp [Nat.testBit], rfl⟩
    · refine ⟨3, rfl, by decide, ?_, rfl⟩
      simp [Nat.testBit]
      linear_combination (-1 : AdjoinRoot (X ^ 2 + X + 1 : (ZMod 2)[X])) * hroot
        + (1 + AdjoinRoot.root (X ^ 2 + X + 1 : (ZMod 2)[X])) * htwo
  · intro k hk
    change (k : Int) < 2 at hk
    have hk2 : k < 2 := by exact_mod_cast hk
    interval_cases k
    · exact ⟨0, rfl, by decide⟩
    · exact ⟨0, rfl, by decide⟩

/-- Witness of C1 on the GF(4) codec: one data symbol, two parity symbols, the
block filling the three symbols of the code. -/
theorem encode_rs_remainder_witness :
    ∃ par, encode_rs gf4_codec [2] ((1 : Nat) : Int) (List.replicate 2 0) 0
        = some ⟨0, [2], par⟩
      ∧ par.length = 2
      ∧ (∑ j in Finset.range 2, C ((if (par.getD j 0).testBit 0 then 1 else 0)
            + (if (par.getD j 0).testBit 1 then AdjoinRoot.root (X ^ 2 + X + 1 : (ZMod 2)[X]) else 0)) * X ^ (2 - 1 - j) : (AdjoinRoot (X ^ 2 + X + 1 : (ZMod 2)[X]))[X])
          = ((∑ i in Finset.range 1, C ((if (([2] : List Nat).getD i 0).testBit 0 then 1 else 0)
            + (if (([2] : List Nat).getD i 0).testBit 1 then AdjoinRoot.root (X ^ 2 + X + 1 : (ZMod 2)[X]) else 0))
                * X ^ (1 - 1 - i)) * X ^ 2)
              %ₘ (X ^ 2 + ∑ k in Finset.range 2,
            C ((AdjoinRoot.root (X ^ 2 + X + 1 : (ZMod 2)[X])) ^ gf4_codec.genpoly.getD k 0) * X ^ k : (AdjoinRoot (X ^ 2 + X + 1 : (ZMod 2)[X]))[X])
      ∧ (X ^ 2 + ∑ k in Finset.range 2,
            C ((AdjoinRoot.root (X ^ 2 + X + 1 : (ZMod 2)[X])) ^ gf4_codec.genpoly.getD k 0) * X ^ k : (AdjoinRoot (X ^ 2 + X + 1 : (ZMod 2)[X]))[X])
          ∣ ∑ t in Finset.range (1 + 2), C ((if ((([2] : List Nat) ++ par).getD t 0).testBit 0 then 1 else 0)
            + (if ((([2] : List Nat) ++ par).getD t 0).testBit 1 then AdjoinRoot.root (X ^ 2 + X + 1 : (ZMod 2)[X]) else 0))
              * X ^ (1 + 2 - 1 - t) :=
  encode_rs_remainder _ _ gf4_codec [2] 1 2 gf4_codec_wf rfl (by decide) (by decide) rfl
    (by decide)

/-! ## Termination of the folding loops -/

/-- The `uint32_t` copy of `nn = 2^mm - 1`: the mask itself up to 32 bits, all
ones beyond. -/
theorem u32_nn (rs : rs_codec) (hnn : rs.nn = 2 ^ rs.mm - 1) :
    (rs.mm ≤ 32 ∧ u32 rs.nn = 2 ^ rs.mm - 1) ∨ (32 < rs.mm ∧ u32 rs.nn = 4294967295) := by
  have hN := nn_cast rs hnn
  have h1 := @Nat.one_le_two_pow rs.mm
  by_cases h : rs.mm ≤ 32
  · left
    have hp : 2 ^ rs.mm ≤ 2 ^ 32 := Nat.pow_le_pow_right (by decide) h
    norm_num at hp
    refine ⟨h, ?_⟩
    rw [hN]
    exact u32_of_nat _ (by omega)
  · right
    refine ⟨by omega, ?_⟩
    obtain ⟨K, hK⟩ : ∃ K, 2 ^ rs.mm = 4294967296 * K := by
      refine ⟨2 ^ (rs.mm - 32), ?_⟩
      have e : rs.mm = 32 + (rs.mm - 32) := by omega
      conv_lhs => rw [e, pow_add]
      norm_num
    rw [hK] at h1
    rw [hN, hK]
    unfold u32
    omega

/-- One iteration of the `uint32_t` loop strictly lowers `x` and stays in range. -/
theorem mul_body_lt (rs : rs_codec) (hmm : 1 ≤ rs.mm) (hnn : rs.nn = 2 ^ rs.mm - 1)
    (y : Nat) (hy : y < 4294967296) (hge : y ≥ u32 rs.nn) :
    mul_fold_exact rs (u32 rs.nn) (u32 (mul_sub_exact (u32 rs.nn) y)) % 4294967296 < y := by
  have h2 := two_le_pow rs.mm hmm
  have hsub : mul_sub_exact (u32 rs.nn) y = ((y - u32 rs.nn : Nat) : Int) := by
    unfold mul_sub_exact; omega
  rw [hsub, u32_of_nat _ (by omega)]
  apply lt_of_le_of_lt (Nat.mod_le _ _)
  unfold mul_fold_exact
  rcases u32_nn rs hnn with ⟨_, hu⟩ | ⟨h32, hu⟩
  · rw [hu] at hge ⊢
    rw [Nat.shiftRight_eq_div_pow, Nat.and_pow_two_sub_one_eq_mod]
    have := fold_le rs.mm (y - (2 ^ rs.mm - 1))
    omega
  · rw [hu] at hge ⊢
    have hp : 2 ^ 32 ≤ 2 ^ rs.mm := Nat.pow_le_pow_right (by decide) (by omega)
    norm_num at hp
    rw [Nat.shiftRight_eq_div_pow, Nat.div_eq_of_lt (by omega)]
    have : (y - 4294967295) &&& 4294967295 ≤ y - 4294967295 := Nat.and_le_left
    omega

theorem mul_loop_terminates (rs : rs_codec) (hmm : 1 ≤ rs.mm) (hnn : rs.nn = 2 ^ rs.mm - 1) :
    ∀ (fuel y : Nat), y < 4294967296 → y ≤ fuel →
      ∃ r, rs_modnn_mul_loop rs (u32 rs.nn) fuel y = some r := by
  intro fuel
  induction fuel with
  | zero =>
    intro y _ hle
    have hy0 : y = 0 := by omega
    subst hy0
    have h2 := two_le_pow rs.mm hmm
    have hpos : 0 < u32 rs.nn := by
      rcases u32_nn rs hnn with ⟨_, hu⟩ | ⟨_, hu⟩ <;> rw [hu] <;> omega
    simp only [rs_modnn_mul_loop]
    rw [if_neg (by omega)]
    exact ⟨0, rfl⟩
  | succ f ih =>
    intro y hy hle
    simp only [rs_modnn_mul_loop]
    by_cases hge : y ≥ u32 rs.nn
    · rw [if_pos hge]
      have hlt := mul_body_lt rs hmm hnn y hy hge
      exact ih _ (by omega) (by omega)
    · rw [if_neg hge]
      exact ⟨y, rfl⟩

/-- C11: for `mm ≥ 1`, `nn = 2^mm - 1` and `x ≥ nn`, one iteration of the loop
body of `rs_modnn` yields `x'` with `0 ≤ x' < x` and `x' ≡ x (mod nn)`, and the
loop continues from `x'`; hence `rs_modnn` returns within `x` iterations for
every `x ≥ 0`, and the `uint32_t` loop of `rs_modnn_mul` returns within as many
iterations as its starting value. -/
theorem rs_modnn_terminates (rs : rs_codec) (x : Int) (hmm : 1 ≤ rs.mm)
    (hnn : rs.nn = 2 ^ rs.mm - 1) (hx : rs.nn ≤ x) :
    (0 ≤ rs_modnn_body rs x ∧ rs_modnn_body rs x < x
      ∧ rs_modnn_body rs x % rs.nn = x % rs.nn)
    ∧ (∀ fuel, rs_modnn rs (fuel + 1) x = rs_modnn rs fuel (rs_modnn_body rs x))
    ∧ (∀ (y : Int) (fuel : Nat), 0 ≤ y → y.toNat ≤ fuel → ∃ r, rs_modnn rs fuel y = some r)
    ∧ (∀ (y fuel : Nat), y < 4294967296 → y ≤ fuel →
        ∃ r, rs_modnn_mul_loop rs (u32 rs.nn) fuel y = some r)
    ∧ (∀ (a b : Int) (fuel : Nat), (u32 a * u32 b) % 4294967296 ≤ fuel →
        ∃ r, rs_modnn_mul rs fuel a b = some r) := by
  have hN := nn_cast rs hnn
  have h2 := two_le_pow rs.mm hmm
  obtain ⟨n, rfl⟩ : ∃ n : Nat, x = (n : Int) := ⟨x.toNat, (Int.toNat_of_nonneg (by omega)).symm⟩
  have hn : 2 ^ rs.mm - 1 ≤ n := by omega
  have hbody : rs_modnn_body rs (n : Int)
      = (((n - (2 ^ rs.mm - 1)) / 2 ^ rs.mm + (n - (2 ^ rs.mm - 1)) % 2 ^ rs.mm : Nat)
          : Int) := by
    unfold rs_modnn_body
    rw [hN, modnn_body_nat rs.mm n hn]
  refine ⟨⟨?_, ?_, ?_⟩, ?_, ?_, fun y fuel => mul_loop_terminates rs hmm hnn fuel y, ?_⟩
  · rw [hbody]; exact Int.natCast_nonneg _
  · rw [hbody]
    have := fold_le rs.mm (n - (2 ^ rs.mm - 1))
    omega
  · rw [hbody, hN]
    norm_cast
    rw [fold_mod]
    conv_rhs => rw [← Nat.sub_add_cancel hn]
    rw [Nat.add_mod_right]
  · intro fuel
    simp only [rs_modnn, rs_modnn_body]
    rw [if_pos hx]
  · intro y fuel hy hfuel
    refine ⟨y % rs.nn, ?_⟩
    rw [← Int.toNat_of_nonneg hy]
    exact rs_modnn_nat rs hmm hnn fuel y.toNat hfuel
  · intro a b fuel hfuel
    obtain ⟨r, hr⟩ := mul_loop_terminates rs hmm hnn fuel _ (Nat.mod_lt _ (by norm_num)) hfuel
    exact ⟨i32 r, by unfold rs_modnn_mul; rw [hr]; rfl⟩

/-- Witness of C11 on the GF(8) codec: from `x = 100` one iteration gives
`(93 >> 3) + (93 & 7) = 16`. -/
theorem rs_modnn_terminates_witness :
    (0 ≤ rs_modnn_body gf8_codec 100 ∧ rs_modnn_body gf8_codec 100 < 100
      ∧ rs_modnn_body gf8_codec 100 % gf8_codec.nn = 100 % gf8_codec.nn)
    ∧ (∀ fuel, rs_modnn gf8_codec (fuel + 1) 100
        = rs_modnn gf8_codec fuel (rs_modnn_body gf8_codec 100)) :=
  ⟨(rs_modnn_terminates gf8_codec 100 (by decide) (by decide) (by decide)).1,
    (rs_modnn_terminates gf8_codec 100 (by decide) (by decide) (by decide)).2.1⟩

/-! ## Runs over prefixes and chunks of the data -/

/-- The loop body uses `data` and `i` only through the read `data[i]`. -/
theorem encode_rs_step_congr_data (rs : rs_codec) (data1 data2 : List Nat) (invmsk : Nat)
    (par : List Nat) (i j : Nat) (h : rd data1 (i : Int) = rd data2 (j : Int)) :
    encode_rs_step rs data1 invmsk par i = encode_rs_step rs data2 invmsk par j := by
  unfold encode_rs_step
  rw [h]

/-- The run over `k + 1` symbols is the run over `k` symbols followed by the
body for the index `k`. -/
theorem encode_rs_loop_succ (rs : rs_codec) (data : List Nat) (invmsk : Nat)
    (par : List Nat) (k : Nat) :
    encode_rs_loop rs data ((k + 1 : Nat) : Int) invmsk par
      = (encode_rs_loop rs data (k : Int) invmsk par).bind
          (fun p => encode_rs_step rs data invmsk p k) := by
  unfold encode_rs_loop
  rw [Int.toNat_ofNat, Int.toNat_ofNat, List.range_succ, List.foldlM_append]
  show Option.bind _ _ = Option.bind _ _
  congr 1
  funext p
  simp only [List.foldlM]
  show Option.bind _ _ = _
  cases encode_rs_step rs data invmsk p k <;> rfl

/-- The run over a concatenation is the run over the first chunk followed by the
run over the second chunk, seeded with the parity the first one left. -/
theorem encode_rs_loop_append (rs : rs_codec) (d1 d2 : List Nat) (invmsk : Nat)
    (par : List Nat) :
    encode_rs_loop rs (d1 ++ d2) ((d1.length + d2.length : Nat) : Int) invmsk par
      = (encode_rs_loop rs d1 (d1.length : Int) invmsk par).bind
          (fun p => encode_rs_loop rs d2 (d2.length : Int) invmsk p) := by
  unfold encode_rs_loop
  rw [Int.toNat_ofNat, Int.toNat_ofNat, Int.toNat_ofNat, List.range_add, List.foldlM_append,
    foldlM_congr (encode_rs_step rs (d1 ++ d2) invmsk) (encode_rs_step rs d1 invmsk)
      (List.range d1.length) par (by
        intro x hx s
        rw [List.mem_range] at hx
        apply encode_rs_step_congr_data
        rw [rd_nat, rd_nat, List.getElem?_append_left hx])]
  show Option.bind _ _ = Option.bind _ _
  congr 1
  funext p
  rw [List.foldlM_map]
  apply foldlM_congr
  intro x _ s
  apply encode_rs_step_congr_data
  rw [rd_nat, rd_nat, List.getElem?_append_right (by omega), Nat.add_sub_cancel_left]

/-- C13: for `nroots ≥ 1` and `|d1| + |d2| + nroots ≤ nn`, each of the three
calls passes the range check, and encoding `d1 ++ d2` from the seed `p` gives
the return value and final parity of encoding `d1` from `p` and then `d2` from
the parity so obtained; nothing is assumed about the tables. -/
theorem encode_rs_chunking (rs : rs_codec) (d1 d2 p : List Nat) (invmsk : Nat)
    (hn1 : 1 ≤ rs.nroots)
    (hblock : ((d1.length + d2.length : Nat) : Int) + rs.nroots ≤ rs.nn) :
    (encode_rs rs (d1 ++ d2) ((d1.length + d2.length : Nat) : Int) p invmsk).map
        (fun r => (r.ret, r.par))
      = (encode_rs rs d1 (d1.length : Int) p invmsk).bind
          (fun r1 => (encode_rs rs d2 (d2.length : Int) r1.par invmsk).map
            (fun r => (r.ret, r.par)))
    ∧ (∀ r, encode_rs rs (d1 ++ d2) ((d1.length + d2.length : Nat) : Int) p invmsk = some r →
        r.ret = 0)
    ∧ (∀ r, encode_rs rs d1 (d1.length : Int) p invmsk = some r → r.ret = 0)
    ∧ (∀ q r, encode_rs rs d2 (d2.length : Int) q invmsk = some r → r.ret = 0) := by
  have h12 : ¬ (rs.nn - rs.nroots - ((d1.length + d2.length : Nat) : Int) < 0
      ∨ rs.nn - rs.nroots - ((d1.length + d2.length : Nat) : Int) ≥ rs.nn) := by
    push_cast at hblock ⊢; omega
  have h1 : ¬ (rs.nn - rs.nroots - (d1.length : Int) < 0
      ∨ rs.nn - rs.nroots - (d1.length : Int) ≥ rs.nn) := by
    push_cast at hblock; omega
  have h2 : ¬ (rs.nn - rs.nroots - (d2.length : Int) < 0
      ∨ rs.nn - rs.nroots - (d2.length : Int) ≥ rs.nn) := by
    push_cast at hblock; omega
  have hret : ∀ (data : List Nat) (len : Int) (q : List Nat),
      ¬ (rs.nn - rs.nroots - len < 0 ∨ rs.nn - rs.nroots - len ≥ rs.nn) →
      ∀ r, encode_rs rs data len q invmsk = some r → r.ret = 0 := by
    intro data len q h r hr
    rw [encode_rs_of_in_range rs data len q invmsk h] at hr
    cases hl : encode_rs_loop rs data len invmsk q with
    | none => rw [hl] at hr; exact Option.noConfusion hr
    | some s =>
      rw [hl] at hr
      simp only [Option.map_some', Option.some.injEq] at hr
      rw [← hr]
  refine ⟨?_, hret _ _ _ h12, hret _ _ _ h1, fun q => hret _ _ q h2⟩
  rw [encode_rs_of_in_range rs _ _ p invmsk h12, encode_rs_of_in_range rs d1 _ p invmsk h1,
    encode_rs_loop_append]
  cases hl : encode_rs_loop rs d1 (d1.length : Int) invmsk p with
  | none => rfl
  | some q =>
    simp only [Option.map_some', Option.some_bind, Option.map_map]
    rw [encode_rs_of_in_range rs d2 _ q invmsk h2, Option.map_map]
    rfl

/-- Witness of C13 on the GF(8) codec: five symbols split after the second. -/
theorem encode_rs_chunking_witness :
    (encode_rs gf8_codec ([1, 2] ++ [3, 4, 5])
        ((([1, 2] : List Nat).length + ([3, 4, 5] : List Nat).length : Nat) : Int) [0, 0] 0).map
        (fun r => (r.ret, r.par))
      = (encode_rs gf8_codec [1, 2] (([1, 2] : List Nat).length : Int) [0, 0] 0).bind
          (fun r1 => (encode_rs gf8_codec [3, 4, 5] (([3, 4, 5] : List Nat).length : Int)
            r1.par 0).map (fun r => (r.ret, r.par))) :=
  (encode_rs_chunking gf8_codec [1, 2] [3, 4, 5] [0, 0] 0 (by decide) (by decide)).1

/-! ## Runs that leave the parity as it is -/

/-- C15: for `len ≤ 0` with `0 < len + nroots ≤ nn` the range check passes, the
loop runs over no index at all, and the encoder returns 0 with every parity
symbol as seeded, whatever the data buffer holds (an empty one included). -/
theorem encode_rs_nonpositive_len (rs : rs_codec) (data : List Nat) (len : Int)
    (par : List Nat) (invmsk : Nat) (hlen : len ≤ 0) (h0 : 0 < len + rs.nroots)
    (h1 : len + rs.nroots ≤ rs.nn) :
    encode_rs rs data len par invmsk = some ⟨0, data, par⟩
    ∧ List.range len.toNat = []
    ∧ encode_rs rs [] len par invmsk = some ⟨0, [], par⟩ := by
  have hr : ¬ (rs.nn - rs.nroots - len < 0 ∨ rs.nn - rs.nroots - len ≥ rs.nn) := by omega
  have ht : len.toNat = 0 := by omega
  have hloop : ∀ d : List Nat, encode_rs rs d len par invmsk = some ⟨0, d, par⟩ := by
    intro d
    rw [encode_rs_of_in_range rs d len par invmsk hr]
    unfold encode_rs_loop
    rw [ht]
    rfl
  exact ⟨hloop data, by rw [ht]; rfl, hloop []⟩

/-- Witness of C15 on the GF(8) codec: `len = -1` with two parity symbols. -/
theorem encode_rs_nonpositive_len_witness :
    encode_rs gf8_codec [1, 2, 3] (-1) [3, 5] 0 = some ⟨0, [1, 2, 3], [3, 5]⟩ :=
  (encode_rs_nonpositive_len gf8_codec [1, 2, 3] (-1) [3, 5] 0 (by decide) (by decide)
    (by decide)).1

theorem replicate_zero_getD (n j : Nat) : (List.replicate n 0).getD j 0 = 0 := by
  rw [List.getD_eq_getElem?_getD, List.getElem?_replicate]
  split_ifs <;> rfl

theorem shifted_zero (n : Nat) :
    shifted n (fun _ => 0) (List.replicate n 0) = List.replicate n 0 := by
  apply list_eq_of_getD
  · rw [shifted_length, List.length_replicate]
  · intro k hk
    rw [shifted_length] at hk
    rw [shifted_getD _ _ _ _ hk, replicate_zero_getD, replicate_zero_getD]
    rfl

/-- A symbol that vanishes under `(· XOR invmsk) AND nn` meets `par[0] = 0` at
the index 0 of `index_of`. -/
theorem fb_index_zero (rs : rs_codec) (d invmsk : Nat) (hnn : 0 ≤ rs.nn)
    (h : (d ^^^ invmsk) &&& rs.nn.toNat = 0) : fb_index rs d invmsk 0 = 0 := by
  have hu : u16 rs.nn = rs.nn.toNat % 65536 := by
    conv_lhs => rw [← Int.toNat_of_nonneg hnn]
    exact u16_nat _
  unfold fb_index
  rw [Nat.xor_zero, u16_nat, hu]
  apply Nat.eq_of_testBit_eq
  intro i
  have hi := congrArg (fun x => Nat.testBit x i) h
  have h16 : (65536 : Nat) = 2 ^ 16 := by norm_num
  simp only [Nat.testBit_and, Nat.testBit_xor, Nat.zero_testBit] at hi
  simp only [h16, Nat.testBit_and, Nat.testBit_xor, Nat.testBit_mod_two_pow, Nat.zero_testBit]
  by_cases h16i : i < 16
  · simpa [h16i] using hi
  · simp [h16i]

/-- C16: with `nroots ≥ 1`, `index_of[0] = nn`, `0 ≤ len`, `len + nroots ≤ nn` and
`(data[i] XOR invmsk) AND nn = 0` for every `i < len`, the encoder started on an
all-zero parity buffer of `nroots` symbols returns 0 with an all-zero parity
buffer; `alpha_to` and `genpoly` are arbitrary. -/
theorem encode_rs_zero_block (rs : rs_codec) (data : List Nat) (len n : Nat) (invmsk v : Nat)
    (hn : rs.nroots = (n : Int)) (hn1 : 1 ≤ n) (hblock : ((len + n : Nat) : Int) ≤ rs.nn)
    (hzero : rs.index_of[0]? = some v) (hv : (v : Int) = rs.nn)
    (hdata : ∀ i, i < len → ∃ d, data[i]? = some d ∧ (d ^^^ invmsk) &&& rs.nn.toNat = 0) :
    encode_rs rs data (len : Int) (List.replicate n 0) invmsk
      = some ⟨0, data, List.replicate n 0⟩ := by
  have hr : ¬ (rs.nn - rs.nroots - (len : Int) < 0 ∨ rs.nn - rs.nroots - (len : Int) ≥ rs.nn) := by
    push_cast at hblock; omega
  rw [encode_rs_of_in_range rs data _ _ invmsk hr]
  obtain ⟨p, hp, hI⟩ := foldlM_inv (encode_rs_step rs data invmsk) (List.range len)
    (fun _ p => p = List.replicate n 0) (List.replicate n 0) rfl (by
      intro k hk s hs
      rw [List.length_range] at hk
      have hget : (List.range len).get ⟨k, by rw [List.length_range]; exact hk⟩ = k := by
        simp
      obtain ⟨d, hd, hm⟩ := hdata k hk
      rw [hget, hs]
      refine ⟨_, ?_, rfl⟩
      rw [encode_rs_step_zero rs data invmsk _ k n d v hn hn1 (List.length_replicate _ _)
        (by rw [rd_nat]; exact hd)
        (by
          rw [replicate_zero_getD, fb_index_zero rs d invmsk (by omega) hm, rd_nat]
          exact hzero)
        hv, shifted_zero])
  unfold encode_rs_loop
  rw [Int.toNat_ofNat, hp, hI]
  rfl

/-- Witness of C16 on the GF(8) codec: under the mask `0xFFFF` the symbols
`0xFFFF` are the zero block. -/
theorem encode_rs_zero_block_witness :
    encode_rs gf8_codec [65535, 65535, 65535] ((3 : Nat) : Int) (List.replicate 2 0) 65535
      = some ⟨0, [65535, 65535, 65535], List.replicate 2 0⟩ :=
  encode_rs_zero_block gf8_codec [65535, 65535, 65535] 3 2 65535 7 (by decide) (by decide)
    (by decide) (by decide) (by decide) (by
      intro i hi
      interval_cases i <;> exact ⟨65535, rfl, by decide⟩)

/-! ## The parity symbols stay inside the field -/

/-- Invariant rule for the runs of a checked loop that reach their end. -/
theorem foldlM_some_inv {α β : Type} (f : β → α → Option β) (I : β → Prop)
    (hstep : ∀ (s : β) (x : α) (s' : β), I s → f s x = some s' → I s') (l : List α) :
    ∀ (b r : β), I b → l.foldlM f b = some r → I r := by
  induction l with
  | nil =>
    intro b r hb h
    simp only [List.foldlM, pure, Option.some.injEq] at h
    rw [← h]; exact hb
  | cons a t ih =>
    intro b r hb h
    simp only [List.foldlM] at h
    cases hf : f b a with
    | none => rw [hf] at h; exact Option.noConfusion h
    | some s => rw [hf] at h; exact ih s r (hstep b a s hb hf) h

theorem wr_le (p p' : List Nat) (i : Int) (v N : Nat) (h : wr p i v = some p')
    (hp : ∀ x ∈ p, x ≤ N) (hv : v ≤ N) : ∀ x ∈ p', x ≤ N := by
  unfold wr at h
  split_ifs at h
  simp only [Option.some.injEq] at h
  rw [← h]
  intro x hx
  rcases List.mem_or_eq_of_mem_set hx with hm | he
  · exact hp x hm
  · rw [he]; exact hv

theorem gen_term_mem (rs : rs_codec) (fb : Nat) (k : Int) (a : Nat)
    (h : gen_term rs fb k = some a) : a ∈ rs.alpha_to := by
  unfold gen_term at h
  cases hg : rd rs.genpoly k with
  | none => rw [hg] at h; exact Option.noConfusion h
  | some g =>
    rw [hg] at h
    exact rd_mem _ _ _ h

theorem shift_feedback_le (rs : rs_codec) (fb : Nat) (par p' : List Nat) (m : Nat)
    (ha : ∀ x ∈ rs.alpha_to, x ≤ 2 ^ m - 1) (hp : ∀ x ∈ par, x ≤ 2 ^ m - 1)
    (h : shift_feedback rs fb par = some p') : ∀ x ∈ p', x ≤ 2 ^ m - 1 := by
  unfold shift_feedback at h
  refine foldlM_some_inv _ (fun p => ∀ x ∈ p, x ≤ 2 ^ m - 1) ?_ _ par p' hp h
  intro s j s' hs hstep
  cases hj : rd s (j : Int) with
  | none => rw [hj] at hstep; exact Option.noConfusion hstep
  | some pj =>
    cases hg : gen_term rs fb (rs.nroots - (j : Int)) with
    | none => rw [hj, hg] at hstep; exact Option.noConfusion hstep
    | some a =>
      rw [hj, hg] at hstep
      exact wr_le s s' _ _ _ hstep hs
        (xor_le_mask _ _ _ (hs _ (rd_mem _ _ _ hj)) (ha _ (gen_term_mem _ _ _ _ hg)))

theorem shift_plain_le (rs : rs_codec) (par p' : List Nat) (N : Nat)
    (hp : ∀ x ∈ par, x ≤ N) (h : shift_plain rs par = some p') : ∀ x ∈ p', x ≤ N := by
  unfold shift_plain at h
  refine foldlM_some_inv _ (fun p => ∀ x ∈ p, x ≤ N) ?_ _ par p' hp h
  intro s j s' hs hstep
  cases hj : rd s (j : Int) with
  | none => rw [hj] at hstep; exact Option.noConfusion hstep
  | some pj =>
    rw [hj] at hstep
    exact wr_le s s' _ _ _ hstep hs (hs _ (rd_mem _ _ _ hj))

/-- Every completed loop body keeps the parity symbols at most `2^m - 1`, given
only that the entries of `alpha_to` are. -/
theorem encode_rs_step_le (rs : rs_codec) (data : List Nat) (invmsk : Nat)
    (par p' : List Nat) (i m : Nat)
    (ha : ∀ x ∈ rs.alpha_to, x ≤ 2 ^ m - 1) (hp : ∀ x ∈ par, x ≤ 2 ^ m - 1)
    (h : encode_rs_step rs data invmsk par i = some p') : ∀ x ∈ p', x ≤ 2 ^ m - 1 := by
  unfold encode_rs_step at h
  cases hd : rd data (i : Int) with
  | none => rw [hd] at h; exact Option.noConfusion h
  | some d =>
    cases hp0 : rd par 0 with
    | none => rw [hd, hp0] at h; exact Option.noConfusion h
    | some p0 =>
      rw [hd, hp0] at h
      simp only [Option.bind_eq_bind, Option.some_bind] at h
      cases hfb : rd rs.index_of (fb_index rs d invmsk p0 : Nat) with
      | none => rw [hfb] at h; exact Option.noConfusion h
      | some fb =>
        rw [hfb] at h
        simp only [Option.some_bind] at h
        split_ifs at h with hne
        · cases hs : shift_feedback rs fb par with
          | none => rw [hs] at h; exact Option.noConfusion h
          | some q =>
            cases hg : gen_term rs fb 0 with
            | none => rw [hs, hg] at h; exact Option.noConfusion h
            | some a =>
              rw [hs, hg] at h
              exact wr_le q p' _ _ _ h (shift_feedback_le rs fb par q m ha hp hs)
                (ha _ (gen_term_mem _ _ _ _ hg))
        · cases hs : shift_plain rs par with
          | none => rw [hs] at h; exact Option.noConfusion h
          | some q =>
            rw [hs] at h
            exact wr_le q p' _ _ _ h (shift_plain_le rs par q _ hp hs) (Nat.zero_le _)

/-- The run over `len` symbols passes through the run over any `k ≤ len` symbols. -/
theorem encode_rs_loop_prefix (rs : rs_codec) (data : List Nat) (len : Int) (invmsk : Nat)
    (par : List Nat) (k : Nat) (hk : (k : Int) ≤ len) :
    encode_rs_loop rs data len invmsk par
      = (encode_rs_loop rs data (k : Int) invmsk par).bind
          (fun p => (List.range' k (len.toNat - k)).foldlM (encode_rs_step rs data invmsk) p) := by
  unfold encode_rs_loop
  have e : List.range len.toNat = List.range k ++ List.range' k (len.toNat - k) := by
    rw [List.range_eq_range', List.range_eq_range']
    have := List.range'_append 0 k (len.toNat - k) 1
    rw [Nat.zero_add, Nat.one_mul] at this
    rw [this]
    congr 1
    omega
  rw [Int.toNat_ofNat, e, List.foldlM_append]
  rfl

/-- C12: with `nn = 2^mm - 1`, `alpha_to` entries at most `nn` and seeded parity
symbols at most `nn`: after every number `k ≤ len` of processed data symbols
every parity symbol is at most `nn` and the index
`((data[i] XOR invmsk) AND nn) XOR par[0]` used on `index_of` is at most `nn`;
these are the states the whole run passes through; the parity returned is at
most `nn`; and on buffers of the contracted shape every such state is reached. -/
theorem encode_rs_parity_in_field (rs : rs_codec) (data : List Nat) (len : Int)
    (par : List Nat) (invmsk : Nat) (hnn : rs.nn = 2 ^ rs.mm - 1)
    (ha : ∀ x ∈ rs.alpha_to, (x : Int) ≤ rs.nn)
    (hp : ∀ x ∈ par, (x : Int) ≤ rs.nn) :
    (∀ (k : Nat) (p : List Nat), (k : Int) ≤ len →
        encode_rs_loop rs data (k : Int) invmsk par = some p →
        (∀ x ∈ p, (x : Int) ≤ rs.nn)
        ∧ ∀ d : Nat, (fb_index rs d invmsk (p.getD 0 0) : Int) ≤ rs.nn
            ∧ ((((d ^^^ invmsk) &&& rs.nn.toNat) ^^^ p.getD 0 0 : Nat) : Int) ≤ rs.nn)
    ∧ (∀ k : Nat, (k : Int) ≤ len →
        encode_rs_loop rs data len invmsk par
          = (encode_rs_loop rs data (k : Int) invmsk par).bind
              (fun p => (List.range' k (len.toNat - k)).foldlM
                (encode_rs_step rs data invmsk) p))
    ∧ (∀ r, encode_rs rs data len par invmsk = some r → ∀ x ∈ r.par, (x : Int) ≤ rs.nn)
    ∧ (bufs_ok rs data len par → 1 ≤ rs.nroots → ∀ k : Nat, (k : Int) ≤ len →
        ∃ p, encode_rs_loop rs data (k : Int) invmsk par = some p) := by
  have hN := nn_cast rs hnn
  have ha' : ∀ x ∈ rs.alpha_to, x ≤ 2 ^ rs.mm - 1 := by
    intro x hx
    have := ha x hx
    rw [hN] at this
    exact_mod_cast this
  have hp' : ∀ x ∈ par, x ≤ 2 ^ rs.mm - 1 := by
    intro x hx
    have := hp x hx
    rw [hN] at this
    exact_mod_cast this
  have hloop : ∀ (l : Int) (p : List Nat), encode_rs_loop rs data l invmsk par = some p →
      ∀ x ∈ p, x ≤ 2 ^ rs.mm - 1 := by
    intro l p h
    unfold encode_rs_loop at h
    exact foldlM_some_inv _ (fun q => ∀ x ∈ q, x ≤ 2 ^ rs.mm - 1)
      (fun s i s' hs hstep => encode_rs_step_le rs data invmsk s s' i rs.mm ha' hs hstep)
      _ par p hp' h
  refine ⟨fun k p _ h => ⟨fun x hx => ?_, fun d => ⟨?_, ?_⟩⟩,
    fun k hk => encode_rs_loop_prefix rs data len invmsk par k hk, fun r hr x hx => ?_,
    fun hb h1 k hk => ?_⟩
  · rw [hN]; exact_mod_cast hloop _ p h x hx
  · rw [hN]
    exact_mod_cast fb_index_le rs d invmsk _ hnn (getD_le_of_all p _ _ (hloop _ p h))
  · rw [hN, Int.toNat_ofNat]
    exact_mod_cast xor_le_mask _ _ _ Nat.and_le_right (getD_le_of_all p _ _ (hloop _ p h))
  · by_cases hrange : rs.nn - rs.nroots - len < 0 ∨ rs.nn - rs.nroots - len ≥ rs.nn
    · rw [encode_rs_of_range_error rs data len par invmsk hrange] at hr
      simp only [Option.some.injEq] at hr
      rw [← hr] at hx
      exact hp x hx
    · rw [encode_rs_of_in_range rs data len par invmsk hrange] at hr
      cases hl : encode_rs_loop rs data len invmsk par with
      | none => rw [hl] at hr; exact Option.noConfusion hr
      | some q =>
        rw [hl] at hr
        simp only [Option.map_some', Option.some.injEq] at hr
        rw [← hr] at hx
        rw [hN]
        exact_mod_cast hloop _ q hl x hx
  · obtain ⟨_, _, _, _, hal, hae, hil, hi, hgl, hg, hdl, hpl, _⟩ := hb
    rw [hN] at hal hil hi hg
    obtain ⟨q, e, _, _⟩ := encode_rs_loop_safe rs data (k : Int) invmsk par rs.nroots.toNat hnn
      (by omega) (by omega) (by omega) ha' (by omega)
      (fun x hx => by exact_mod_cast hi x hx) (by omega)
      (fun x hx => by exact_mod_cast hg x hx) (by omega) (by omega) hp'
    exact ⟨q, e⟩

/-- Witness of C12 on the GF(8) codec: the state after five symbols is reached
and its parity symbols are at most 7. -/
theorem encode_rs_parity_in_field_witness :
    ∃ p, encode_rs_loop gf8_codec [1, 2, 3, 4, 5] ((5 : Nat) : Int) 0 [0, 0] = some p
      ∧ ∀ x ∈ p, (x : Int) ≤ gf8_codec.nn := by
  have T := encode_rs_parity_in_field gf8_codec [1, 2, 3, 4, 5] 5 [0, 0] 0 (by decide)
    (by decide) (by decide)
  obtain ⟨p, hp⟩ := T.2.2.2 (by unfold bufs_ok; decide) (by decide) 5 (by decide)
  exact ⟨p, hp, (T.1 5 p (by decide) hp).1⟩

/-! ## Linearity over GF(2) -/

theorem zipWith_xor_getD (a b : List Nat) (hl : a.length = b.length) (j : Nat) :
    (List.zipWith (· ^^^ ·) a b).getD j 0 = a.getD j 0 ^^^ b.getD j 0 := by
  rw [List.getD_eq_getElem?_getD, List.getD_eq_getElem?_getD, List.getD_eq_getElem?_getD,
    List.getElem?_zipWith]
  by_cases hj : j < a.length
  · rw [List.getElem?_eq_getElem hj, List.getElem?_eq_getElem (by omega)]
    rfl
  · rw [List.getElem?_eq_none (by omega), List.getElem?_eq_none (l := b) (by omega)]
    rfl

theorem zipWith_xor_le (m : Nat) (a b : List Nat) (ha : ∀ x ∈ a, x ≤ 2 ^ m - 1)
    (hb : ∀ x ∈ b, x ≤ 2 ^ m - 1) : ∀ x ∈ List.zipWith (· ^^^ ·) a b, x ≤ 2 ^ m - 1 := by
  intro x hx
  obtain ⟨i, hi, rfl⟩ := List.mem_iff_getElem.mp hx
  rw [List.getElem_zipWith]
  rw [List.length_zipWith] at hi
  exact xor_le_mask _ _ _ (ha _ (List.getElem_mem _)) (hb _ (List.getElem_mem _))

/-- The three runs, on `d1`, on `d2` and on their XOR, stay in step: after `k`
symbols the third register is the XOR of the other two. -/
theorem encode_rs_loop_linear {F : Type} [CommRing F] (φ : Nat → F) (α : F) (rs : rs_codec)
    (h : codec_wf φ α rs)
    (hinj : ∀ a b : Nat, (a : Int) ≤ rs.nn → (b : Int) ≤ rs.nn → φ a = φ b → a = b)
    (d1 d2 p1 p2 : List Nat) (len n : Nat)
    (hn : rs.nroots = (n : Int)) (hn1 : 1 ≤ n)
    (hd1 : d1.length = len) (hd2 : d2.length = len) (hp1 : p1.length = n) (hp2 : p2.length = n)
    (hs1 : ∀ d ∈ d1, d ≤ 2 ^ rs.mm - 1 ∧ d < 65536)
    (hs2 : ∀ d ∈ d2, d ≤ 2 ^ rs.mm - 1 ∧ d < 65536)
    (hq1 : ∀ x ∈ p1, x ≤ 2 ^ rs.mm - 1) (hq2 : ∀ x ∈ p2, x ≤ 2 ^ rs.mm - 1) :
    ∀ k, k ≤ len → ∃ q1 q2,
      encode_rs_loop rs d1 (k : Int) 0 p1 = some q1
      ∧ encode_rs_loop rs d2 (k : Int) 0 p2 = some q2
      ∧ encode_rs_loop rs (List.zipWith (· ^^^ ·) d1 d2) (k : Int) 0
          (List.zipWith (· ^^^ ·) p1 p2) = some (List.zipWith (· ^^^ ·) q1 q2)
      ∧ q1.length = n ∧ q2.length = n
      ∧ (∀ x ∈ q1, x ≤ 2 ^ rs.mm - 1) ∧ (∀ x ∈ q2, x ≤ 2 ^ rs.mm - 1) := by
  have hN := nn_cast rs h.2.1
  have hxor : ∀ a b : Nat, a ≤ 2 ^ rs.mm - 1 → b ≤ 2 ^ rs.mm - 1 →
      φ (a ^^^ b) = φ a + φ b := by
    intro a b ha hb
    exact h.2.2.1 a b (by rw [hN]; exact_mod_cast ha) (by rw [hN]; exact_mod_cast hb)
  have hinj' : ∀ a b : Nat, a ≤ 2 ^ rs.mm - 1 → b ≤ 2 ^ rs.mm - 1 → φ a = φ b → a = b := by
    intro a b ha hb
    exact hinj a b (by rw [hN]; exact_mod_cast ha) (by rw [hN]; exact_mod_cast hb)
  intro k
  induction k with
  | zero =>
    intro _
    exact ⟨p1, p2, rfl, rfl, rfl, hp1, hp2, hq1, hq2⟩
  | succ k ih =>
    intro hk
    obtain ⟨q1, q2, e1, e2, ex, l1, l2, b1, b2⟩ := ih (by omega)
    have hk1 : k < d1.length := by omega
    have hk2 : k < d2.length := by omega
    have hdx : (List.zipWith (· ^^^ ·) d1 d2).length = len := by
      rw [List.length_zipWith, hd1, hd2, Nat.min_self]
    have hc1 := hs1 _ (getD_mem_of_lt d1 k hk1)
    have hc2 := hs2 _ (getD_mem_of_lt d2 k hk2)
    have hcx : (List.zipWith (· ^^^ ·) d1 d2).getD k 0 = d1.getD k 0 ^^^ d2.getD k 0 :=
      zipWith_xor_getD d1 d2 (by omega) k
    obtain ⟨r1, s1, t1, u1, v1⟩ := encode_rs_step_field φ α rs h d1 q1 k n hn hn1 l1 b1 hk1
      hc1.1 hc1.2
    obtain ⟨r2, s2, t2, u2, v2⟩ := encode_rs_step_field φ α rs h d2 q2 k n hn hn1 l2 b2 hk2
      hc2.1 hc2.2
    obtain ⟨rx, sx, tx, ux, vx⟩ := encode_rs_step_field φ α rs h (List.zipWith (· ^^^ ·) d1 d2)
      (List.zipWith (· ^^^ ·) q1 q2) k n hn hn1
      (by rw [List.length_zipWith, l1, l2, Nat.min_self])
      (zipWith_xor_le rs.mm q1 q2 b1 b2) (by omega)
      (by rw [hcx]; exact xor_le_mask _ _ _ hc1.1 hc2.1)
      (by
        rw [hcx]
        have h16 : (65536 : Nat) = 2 ^ 16 := by norm_num
        rw [h16] at hc1 hc2 ⊢
        exact Nat.xor_lt_two_pow hc1.2 hc2.2)
    have hrx : rx = List.zipWith (· ^^^ ·) r1 r2 := by
      apply list_eq_of_getD
      · rw [tx, List.length_zipWith, t1, t2, Nat.min_self]
      · intro j hj
        rw [tx] at hj
        rw [zipWith_xor_getD r1 r2 (by omega) j]
        apply hinj' _ _ (getD_le_of_all rx _ _ ux)
          (xor_le_mask _ _ _ (getD_le_of_all r1 _ _ u1) (getD_le_of_all r2 _ _ u2))
        rw [hxor _ _ (getD_le_of_all r1 _ _ u1) (getD_le_of_all r2 _ _ u2), vx j hj, v1 j hj,
          v2 j hj, hcx, zipWith_xor_getD q1 q2 (by omega), zipWith_xor_getD q1 q2 (by omega),
          hxor _ _ hc1.1 hc2.1,
          hxor _ _ (getD_le_of_all q1 _ _ b1) (getD_le_of_all q2 _ _ b2),
          hxor _ _ (getD_le_of_all q1 _ _ b1) (getD_le_of_all q2 _ _ b2)]
        ring
    refine ⟨r1, r2, ?_, ?_, ?_, t1, t2, u1, u2⟩
    · rw [encode_rs_loop_succ, e1]; exact s1
    · rw [encode_rs_loop_succ, e2]; exact s2
    · rw [encode_rs_loop_succ, ex, ← hrx]; exact sx

/-- C14: on a well-formed codec whose symbols `0..nn` stand for distinct ring
elements, for `nroots ≥ 1`, `len + nroots ≤ nn`, `invmsk = 0`, data sequences
`d1`, `d2` of length `len` and seeds `p1`, `p2` of `nroots` symbols, all symbols
at most `nn`: the three calls return 0 and the parity of
`encode(d1 XOR d2, seed p1 XOR p2)` is the element-wise XOR of the parities of
`encode(d1, seed p1)` and `encode(d2, seed p2)`. -/
theorem encode_rs_linear {F : Type} [CommRing F] (φ : Nat → F) (α : F) (rs : rs_codec)
    (d1 d2 p1 p2 : List Nat) (len n : Nat) (h : codec_wf φ α rs)
    (hinj : ∀ a b : Nat, (a : Int) ≤ rs.nn → (b : Int) ≤ rs.nn → φ a = φ b → a = b)
    (hn : rs.nroots = (n : Int)) (hn1 : 1 ≤ n) (hblock : ((len + n : Nat) : Int) ≤ rs.nn)
    (hd1 : d1.length = len) (hd2 : d2.length = len) (hp1 : p1.length = n) (hp2 : p2.length = n)
    (hs1 : ∀ d ∈ d1, (d : Int) ≤ rs.nn ∧ d < 65536)
    (hs2 : ∀ d ∈ d2, (d : Int) ≤ rs.nn ∧ d < 65536)
    (hq1 : ∀ x ∈ p1, (x : Int) ≤ rs.nn) (hq2 : ∀ x ∈ p2, (x : Int) ≤ rs.nn) :
    ∃ q1 q2, encode_rs rs d1 (len : Int) p1 0 = some ⟨0, d1, q1⟩
      ∧ encode_rs rs d2 (len : Int) p2 0 = some ⟨0, d2, q2⟩
      ∧ encode_rs rs (List.zipWith (· ^^^ ·) d1 d2) (len : Int)
          (List.zipWith (· ^^^ ·) p1 p2) 0
        = some ⟨0, List.zipWith (· ^^^ ·) d1 d2, List.zipWith (· ^^^ ·) q1 q2⟩ := by
  have hN := nn_cast rs h.2.1
  have cast_le : ∀ x : Nat, (x : Int) ≤ rs.nn → x ≤ 2 ^ rs.mm - 1 := by
    intro x hx
    rw [hN] at hx
    exact_mod_cast hx
  obtain ⟨q1, q2, e1, e2, ex, _⟩ := encode_rs_loop_linear φ α rs h hinj d1 d2 p1 p2 len n hn hn1
    hd1 hd2 hp1 hp2 (fun d hd => ⟨cast_le d (hs1 d hd).1, (hs1 d hd).2⟩)
    (fun d hd => ⟨cast_le d (hs2 d hd).1, (hs2 d hd).2⟩)
    (fun x hx => cast_le x (hq1 x hx)) (fun x hx => cast_le x (hq2 x hx)) len (le_refl _)
  have hr : ¬ (rs.nn - rs.nroots - (len : Int) < 0 ∨ rs.nn - rs.nroots - (len : Int) ≥ rs.nn) := by
    push_cast at hblock
    omega
  refine ⟨q1, q2, ?_, ?_, ?_⟩
  · rw [encode_rs_of_in_range rs d1 _ p1 0 hr, e1]; rfl
  · rw [encode_rs_of_in_range rs d2 _ p2 0 hr, e2]; rfl
  · rw [encode_rs_of_in_range rs _ _ _ 0 hr, ex]; rfl

/-- In `GF(2)[x]/(x^2 + x + 1)` the four symbols of the GF(4) codec stand for
four distinct elements. -/
theorem gf4_sym_injective :
    ∀ a b : Nat, (a : Int) ≤ gf4_codec.nn → (b : Int) ≤ gf4_codec.nn →
      ((if a.testBit 0 then 1 else 0)
          + (if a.testBit 1 then AdjoinRoot.root (X ^ 2 + X + 1 : (ZMod 2)[X]) else 0)
        : AdjoinRoot (X ^ 2 + X + 1 : (ZMod 2)[X]))
        = (if b.testBit 0 then 1 else 0)
          + (if b.testBit 1 then AdjoinRoot.root (X ^ 2 + X + 1 : (ZMod 2)[X]) else 0) →
      a = b := by
  have hroot : (AdjoinRoot.root (X ^ 2 + X + 1 : (ZMod 2)[X])) ^ 2
      + AdjoinRoot.root (X ^ 2 + X + 1 : (ZMod 2)[X]) + 1 = 0 := by
    have := AdjoinRoot.eval₂_root (X ^ 2 + X + 1 : (ZMod 2)[X])
    simpa [Polynomial.eval₂_add, Polynomial.eval₂_pow] using this
  have htwo : (1 + 1 : AdjoinRoot (X ^ 2 + X + 1 : (ZMod 2)[X])) = 0 := by
    have : (AdjoinRoot.of (X ^ 2 + X + 1 : (ZMod 2)[X])) (1 + 1) = 0 := by
      rw [show (1 + 1 : ZMod 2) = 0 from by decide, map_zero]
    simpa using this
  have hdeg : (X ^ 2 + X + 1 : (ZMod 2)[X]).degree ≠ 0 := by
    have : (X ^ 2 + X + 1 : (ZMod 2)[X]).degree = 2 := by compute_degree!
    rw [this]
    decide
  have hnt : Nontrivial (AdjoinRoot (X ^ 2 + X + 1 : (ZMod 2)[X])) :=
    AdjoinRoot.nontrivial _ hdeg
  have h10 : (1 : AdjoinRoot (X ^ 2 + X + 1 : (ZMod 2)[X])) ≠ 0 := one_ne_zero
  have hzero : ∀ s : Nat, s ≤ 3 →
      ((if s.testBit 0 then 1 else 0)
          + (if s.testBit 1 then AdjoinRoot.root (X ^ 2 + X + 1 : (ZMod 2)[X]) else 0)
        : AdjoinRoot (X ^ 2 + X + 1 : (ZMod 2)[X])) = 0 → s = 0 := by
    intro s hs h
    interval_cases s
    · rfl
    · exfalso
      simp [Nat.testBit] at h
    · exfalso
      simp [Nat.testBit] at h
      exact h10 (by linear_combination hroot
        - (AdjoinRoot.root (X ^ 2 + X + 1 : (ZMod 2)[X]) + 1) * h)
    · exfalso
      simp [Nat.testBit] at h
      exact h10 (by linear_combination hroot
        - (AdjoinRoot.root (X ^ 2 + X + 1 : (ZMod 2)[X])) * h)
  intro a b ha hb hab
  change (a : Int) ≤ 3 at ha
  change (b : Int) ≤ 3 at hb
  have ha3 : a ≤ 2 ^ 2 - 1 := by exact_mod_cast ha
  have hb3 : b ≤ 2 ^ 2 - 1 := by exact_mod_cast hb
  have hx := gf4_codec_wf.2.2.1 a b ha hb
  simp only at hx
  rw [hab] at hx
  have hdouble : ∀ c : AdjoinRoot (X ^ 2 + X + 1 : (ZMod 2)[X]), c + c = 0 := by
    intro c
    have e : c + c = c * (1 + 1) := by ring
    rw [e, htwo, mul_zero]
  rw [hdouble] at hx
  exact Nat.xor_eq_zero.mp (hzero _ (xor_le_mask 2 a b ha3 hb3) hx)

/-- Witness of C14 on the GF(4) codec: one data symbol and two seeded parity
symbols on each side. -/
theorem encode_rs_linear_witness :
    ∃ q1 q2, encode_rs gf4_codec [2] ((1 : Nat) : Int) [1, 0] 0 = some ⟨0, [2], q1⟩
      ∧ encode_rs gf4_codec [3] ((1 : Nat) : Int) [2, 3] 0 = some ⟨0, [3], q2⟩
      ∧ encode_rs gf4_codec (List.zipWith (· ^^^ ·) [2] [3]) ((1 : Nat) : Int)
          (List.zipWith (· ^^^ ·) [1, 0] [2, 3]) 0
        = some ⟨0, List.zipWith (· ^^^ ·) [2] [3], List.zipWith (· ^^^ ·) q1 q2⟩ :=
  encode_rs_linear _ _ gf4_codec [2] [3] [1, 0] [2, 3] 1 2 gf4_codec_wf gf4_sym_injective rfl
    (by decide) (by decide) rfl rfl rfl rfl (by decide) (by decide) (by decide) (by decide)

end RSLib
